import Mathlib

/-!
# git-review: a verification development of the review-session engine

Shallow embedding of the comment engine, navigation engine and session
lifecycle of the `git-review` tool.  The SQLite tables (schema and queries
from the repository's SKILL.md / query files) are modelled as Lean lists;
the sqlc query functions become pure list operations; the external `git`
process is an abstract interface (`VCS`) whose operations may fail.

Conventions:
* `sql.Null*` / `uuid.NullUUID` values are `Option _`.
* A query returning `:one` is modelled by `List.find?` on the table in row
  (insertion) order; `LIKE pfx||'%'` becomes a string-prefix test
  (`strLeads`), ids being canonical lowercase UUIDs.
* `ListCommits` has `ORDER BY position`; the `commits` table is only ever
  bulk-inserted in position order by `start`, so the store keeps it sorted
  and `listCommits` is the identity on the table.
* Go's unbounded parent-chain walks are given explicit fuel; for the
  well-formed (acyclic) states the claims quantify over, the fuel is shown
  to be irrelevant.
* Database errors (constraint violations) are modelled where the schema
  declares constraints; `WithTx` rollback is `withTx`.
-/

namespace GitReview

/-- A row of the `session` table (base_ref, branch, created_at). -/
structure Session where
  baseRef : String
  branch : String
  createdAt : String
deriving Repr, DecidableEq

/-- A row of the `commits` table (sha PRIMARY KEY, message, position UNIQUE).
`position` is `int64` in Go; only the values `0..n-1` ever occur, so it is a `Nat` here. -/
structure Commit where
  sha : String
  message : String
  position : Nat
deriving Repr, DecidableEq

/-- A row of the `reviewers` table (name PRIMARY KEY, current_sha nullable). -/
structure Reviewer where
  name : String
  currentSha : Option String
deriving Repr, DecidableEq

/-- A row of the `comments` table.  `parentId` is the nullable self-reference
(`ON DELETE CASCADE`), `resolvedAt`/`resolvedBy` the nullable resolution pair. -/
structure Comment where
  id : String
  parentId : Option String
  commit : String
  file : Option String
  startLine : Option Int
  endLine : Option Int
  body : String
  resolvedAt : Option String
  resolvedBy : Option String
  createdAt : String
  createdBy : String
deriving Repr, DecidableEq

/-- The review database: the four tables.  The `session` table holds at most
one row (it is written once per session and deleted at teardown), so it is
an `Option`. -/
structure Store where
  session : Option Session
  commits : List Commit
  reviewers : List Reviewer
  comments : List Comment
deriving Repr, DecidableEq

/-- `strLeads s pat`: `s` starts with `pat` (Go `strings.HasPrefix(s, pat)`,
SQLite `s LIKE pat||'%'` on canonical lowercase ids), on char lists so that
it evaluates in the kernel. -/
def leadsWith : List Char → List Char → Bool
  | [], _ => true
  | _ :: _, [] => false
  | p :: ps, c :: cs => p == c && leadsWith ps cs

/-- String-level wrapper for `leadsWith`. -/
def strLeads (s pat : String) : Bool := leadsWith pat.toList s.toList

/-! ## Query layer (sqlc queries over the store) -/

/-- `SessionExists`: `SELECT COUNT(*) FROM session` compared with 0 by callers. -/
def sessionExists (st : Store) : Bool := st.session.isSome

/-- `GetSession`: the singleton session row, or the `sql.ErrNoRows` failure. -/
def getSession (st : Store) : Except String Session :=
  match st.session with
  | some s => .ok s
  | none => .error "failed to get session"

/-- `ListCommits`: `ORDER BY position`; the table is kept position-ordered. -/
def listCommits (st : Store) : List Commit := st.commits

/-- `GetCommitByPosition`: `WHERE position = ?`. -/
def getCommitByPosition (st : Store) (p : Nat) : Option Commit :=
  st.commits.find? (fun c => c.position == p)

/-- `FindCommitBySHAPrefix`: `WHERE sha LIKE ?||'%'` as `:one` — the first
matching row in table order. -/
def findCommitBySHAPfx (st : Store) (pfx : String) : Option Commit :=
  st.commits.find? (fun c => strLeads c.sha pfx)

/-- `GetReviewer`: `WHERE name = ?` as `:one`. -/
def getReviewer (st : Store) (name : String) : Except String Reviewer :=
  match st.reviewers.find? (fun r => r.name == name) with
  | some r => .ok r
  | none => .error "failed to get reviewer"

/-- `UpdateReviewerCurrent`: `UPDATE reviewers SET current_sha = ? WHERE name = ?`. -/
def updateReviewerCurrent (st : Store) (sha : String) (name : String) : Store :=
  { st with reviewers := st.reviewers.map (fun r =>
      if r.name = name then { r with currentSha := some sha } else r) }

/-- `FindCommentByPrefix`: `WHERE id LIKE ?||'%'` as `:one` — the first
matching row in table order (Go surfaces `sql.ErrNoRows` as "comment not found"). -/
def findCommentByIdPfx (cs : List Comment) (pfx : String) : Option Comment :=
  cs.find? (fun c => strLeads c.id pfx)

/-- `InsertComment`: appends a row.  The `id` PRIMARY KEY is a fresh UUIDv7
generated by the caller and the `commit` foreign key always comes from an
existing commit row, so the constraint checks are elided for this table. -/
def insertComment (c : Comment) (st : Store) : Store :=
  { st with comments := st.comments ++ [c] }

/-- Go `findCommitPosition` returns `-1` when the sha is not in the list;
modelled as `none` (every caller immediately branches on `pos < 0`). -/
def findCommitPosition (commits : List Commit) (sha : String) : Option Nat :=
  (commits.find? (fun cm => cm.sha == sha)).map (fun cm => cm.position)

/-! ## Parent-chain walking and the comment forest -/

/-- `buildIDMap` is a Go map from id to comment; on duplicate ids the last
insertion wins, hence the `reverse`. -/
def idLookup (cs : List Comment) (k : String) : Option Comment :=
  cs.reverse.find? (fun c => c.id == k)

/-- Go `findRoot`: walk `parentId` links upward until a root or a dangling
link; the Go loop is unbounded, so it carries fuel here (callers pass the
table size, which suffices on acyclic data and is shown fuel-irrelevant). -/
def findRoot (cs : List Comment) : Nat → Comment → Comment
  | 0, c => c
  | fuel + 1, c =>
    match c.parentId with
    | none => c
    | some p =>
      match idLookup cs p with
      | none => c
      | some pc => findRoot cs fuel pc

/-- `childRel cs y x`: the comment with id `x` is a direct child of id `y`. -/
def childRel (cs : List Comment) (y x : String) : Prop :=
  ∃ c ∈ cs, c.id = x ∧ c.parentId = some y

/-- `Descendant cs r x`: id `x` is `r` itself or a (transitive) descendant
of id `r` in the comment forest. -/
def Descendant (cs : List Comment) (r x : String) : Prop :=
  Relation.ReflTransGen (childRel cs) r x

/-- Per-comment well-formedness: the depth measure is bounded by the table
size, and a non-null parent link resolves to a row of strictly smaller
depth. -/
def wfNode (cs : List Comment) (dep : String → Nat) (c : Comment) : Bool :=
  decide (dep c.id < cs.length) &&
  match c.parentId with
  | none => true
  | some p => cs.any (fun pc => pc.id == p) && decide (dep p < dep c.id)

/-- Well-formed comment forest: ids are unique (PRIMARY KEY), every non-null
parent link resolves to a row, and `dep` is a depth measure bounded by the
table size witnessing acyclicity.  Any acyclic forest admits such a `dep`;
it is `Bool`-valued so concrete instances evaluate. -/
def wfForest (cs : List Comment) (dep : String → Nat) : Bool :=
  decide ((cs.map (fun c => c.id)).Nodup) && cs.all (wfNode cs dep)

/-! ## List command: `filterComments` -/

/-- The commit-prefix resolution at the top of Go `filterComments`: the
*first* session commit whose sha starts with the filter value, or `""` when
none matches (the caller then returns nil). -/
def resolveCommitSHA (commits : List Commit) (commit : String) : String :=
  if commit != "" then
    match commits.find? (fun cm => strLeads cm.sha commit) with
    | some cm => cm.sha
    | none => ""
  else ""

/-- The per-root filter conditions of the `rootIDs` loop in Go
`filterComments`: only roots, and none of the four active filters skips
the comment. -/
def rootPassesB (matchCommitSHA : String) (unresolved : Bool) (creator file : String)
    (cm : Comment) : Bool :=
  !cm.parentId.isSome &&
  !(matchCommitSHA != "" && cm.commit != matchCommitSHA) &&
  !(unresolved && cm.resolvedAt.isSome) &&
  !(creator != "" && cm.createdBy != creator) &&
  !(file != "" && !(cm.file == some file))

/-- The set of root ids that pass the filters (Go builds a map used as a
set; a list with membership tests is the same). -/
def rootIDsOf (allComments : List Comment) (matchCommitSHA : String) (unresolved : Bool)
    (creator file : String) : List String :=
  (allComments.filter (rootPassesB matchCommitSHA unresolved creator file)).map
    (fun c => c.id)

/-- Go `filterComments` (list.go): AND-combined filters select root comments;
the result is the matching roots plus every comment whose `findRoot` is a
matching root.  An active commit filter resolves to the *first* session
commit whose sha starts with the given value and yields `nil` when none
matches. -/
def filterComments (allComments : List Comment) (commits : List Commit)
    (commit : String) (unresolved : Bool) (creator : String) (file : String) : List Comment :=
  let hasFilter := commit != "" || unresolved || creator != "" || file != ""
  if !hasFilter then allComments
  else
    let matchCommitSHA := resolveCommitSHA commits commit
    if commit != "" && matchCommitSHA == "" then []
    else
      let rootIDs := rootIDsOf allComments matchCommitSHA unresolved creator file
      allComments.filter (fun cm =>
        match cm.parentId with
        | none => rootIDs.contains cm.id
        | some _ => rootIDs.contains (findRoot allComments allComments.length cm).id)

/-- Spec-side reading of "the root satisfies all active filters": each
inactive filter passes vacuously; the commit filter means "attached to the
first session commit matching the prefix". -/
def rootSatisfiesFilters (commits : List Commit) (commit : String) (unresolved : Bool)
    (creator : String) (file : String) (c : Comment) : Bool :=
  (commit == "" ||
    (match commits.find? (fun cm => strLeads cm.sha commit) with
     | some cm => c.commit == cm.sha
     | none => false)) &&
  (!unresolved || !c.resolvedAt.isSome) &&
  (creator == "" || c.createdBy == creator) &&
  (file == "" || c.file == some file)

/-- The non-commit filters of `rootSatisfiesFilters`, used to isolate the
commit-prefix resolution behaviour. -/
def rootPassesOtherFilters (unresolved : Bool) (creator : String) (file : String)
    (c : Comment) : Bool :=
  (!unresolved || !c.resolvedAt.isSome) &&
  (creator == "" || c.createdBy == creator) &&
  (file == "" || c.file == some file)

/-! ## Delete command -/

/-- `UPDATE comments SET parent_id = ?1 WHERE parent_id = ?2` (`ReparentChildren`). -/
def reparentChildren (newParent : Option String) (oldParent : String)
    (cs : List Comment) : List Comment :=
  cs.map (fun c => if c.parentId = some oldParent then { c with parentId := newParent } else c)

/-- A comment whose parent link points into the dead set. -/
def parentDead (dead : List String) (c : Comment) : Bool :=
  match c.parentId with
  | some p => dead.contains p
  | none => false

/-- Transitive closure of SQLite's `ON DELETE CASCADE` on `parent_id`:
starting from the deleted ids, repeatedly mark every row whose parent is
marked.  One round per row suffices, so `deleteCommentCascade` runs it with
fuel `cs.length`. -/
def cascadeGrow (cs : List Comment) : Nat → List String → List String
  | 0, dead => dead
  | fuel + 1, dead =>
    let added := (cs.filter (fun c => parentDead dead c && !dead.contains c.id)).map
      (fun c => c.id)
    if added = [] then dead else cascadeGrow cs fuel (dead ++ added)

/-- `DELETE FROM comments WHERE id = ?` with the schema's `ON DELETE CASCADE`
on the `parent_id` self-reference. -/
def deleteCommentCascade (id : String) (cs : List Comment) : List Comment :=
  let dead := cascadeGrow cs cs.length [id]
  cs.filter (fun c => !dead.contains c.id)

/-- `DeleteCmd.Run`: inside one transaction, resolve the id prefix, re-parent
the direct children when the target is a non-root, then delete the target
(the cascade removes a root's subtree).  The whole body is one pure state
transform — the `WithTx` wrapper commits it entirely or not at all. -/
def deleteCmdRun (st : Store) (idPfx : String) : Except String Store :=
  if !sessionExists st then .error "No review in progress" else
  match findCommentByIdPfx st.comments idPfx with
  | none => .error "comment not found"
  | some target =>
    let cs1 :=
      if target.parentId.isSome then reparentChildren target.parentId target.id st.comments
      else st.comments
    .ok { st with comments := deleteCommentCascade target.id cs1 }

/-! ## Navigation: `jumpTo`, `next` -/

/-- The external version-control interface used by navigation: a checkout of
a ref and an index overlay (`read-tree -u --reset`) over an abstract
working-copy state `σ`, each of which may fail. -/
structure VCS (σ : Type) where
  checkout : String → σ → Except String σ
  readTreeReset : String → σ → Except String σ

/-- The parent-point resolution at the top of `jumpTo`: session base for
position 0, otherwise the commit at `position - 1`. -/
def resolveParentRef (st : Store) (target : Commit) : Except String String :=
  if target.position = 0 then
    match st.session with
    | some s => .ok s.baseRef
    | none => .error "failed to get session"
  else
    match getCommitByPosition st (target.position - 1) with
    | some c => .ok c.sha
    | none => .error "failed to get parent commit"

/-- `jumpTo` (finish.go): checkout the parent point, overlay the target's
tree onto the index, and only then record the reviewer's cursor.  An error
anywhere returns without the store write (the caller keeps its store). -/
def jumpTo {σ : Type} (vcs : VCS σ) (ws : σ) (st : Store) (reviewerName : String)
    (target : Commit) : Except String (σ × Store) :=
  match resolveParentRef st target with
  | .error e => .error e
  | .ok parentRef =>
    match vcs.checkout parentRef ws with
    | .error e => .error e
    | .ok ws1 =>
      match vcs.readTreeReset target.sha ws1 with
      | .error e => .error e
      | .ok ws2 => .ok (ws2, updateReviewerCurrent st target.sha reviewerName)

/-- Outcome marker for `next`: either it advanced (printing the new position)
or everything was reviewed (printing "All commits reviewed."). -/
inductive NextOutcome where
  | advanced (target : Commit)
  | completed
deriving Repr, DecidableEq

/-- `NextCmd.Run`: target position 0 without a cursor, current + 1 otherwise;
past the end it reports completion and succeeds without touching anything. -/
def nextCmdRun {σ : Type} (vcs : VCS σ) (ws : σ) (st : Store) (reviewerName : String) :
    Except String (σ × Store × NextOutcome) :=
  if !sessionExists st then .error "No review in progress" else
  match getReviewer st reviewerName with
  | .error e => .error e
  | .ok reviewer =>
    let commits := listCommits st
    let total := commits.length
    let nextIdxE : Except String Nat :=
      match reviewer.currentSha with
      | none => .ok 0
      | some sha =>
        match findCommitPosition commits sha with
        | none => .error "current commit not found in commit list"
        | some pos => .ok (pos + 1)
    match nextIdxE with
    | .error e => .error e
    | .ok nextIdx =>
      if h : nextIdx < total then
        match jumpTo vcs ws st reviewerName (commits.get ⟨nextIdx, h⟩) with
        | .error e => .error e
        | .ok (ws1, st1) => .ok (ws1, st1, NextOutcome.advanced (commits.get ⟨nextIdx, h⟩))
      else .ok (ws, st, NextOutcome.completed)

/-- The commits table as `start` leaves it: row `i` carries position `i`
(contiguous 0-based order, C8). -/
def commitsWellPositioned (cs : List Commit) : Bool :=
  (List.range cs.length).all (fun i =>
    match cs[i]? with
    | some c => c.position == i
    | none => false)

/-! ## Add command (create / reply) and the line-range parser -/

/-- Split a char list at its first `','` (Go `strings.IndexByte(raw, ',')`). -/
def splitFirstComma : List Char → Option (List Char × List Char)
  | [] => none
  | c :: rest =>
    if c = ',' then some ([], rest)
    else
      match splitFirstComma rest with
      | some (a, b) => some (c :: a, b)
      | none => none

/-- Decimal digit value of an ASCII digit char. -/
def digitVal (c : Char) : Nat := c.toNat - 48

/-- The decimal value of a digit run (Go's accumulation loop inside
`strconv.ParseUint`). -/
def digitsNatVal (ds : List Char) : Nat :=
  ds.foldl (fun acc c => 10 * acc + digitVal c) 0

/-- The digit-run stage of Go `strconv.ParseInt(s, 10, 64)`: a non-empty
all-digit run whose (signed) value fits the signed 64-bit range; anything
else is an error (`none`). -/
def goParseDigits64 (neg : Bool) (ds : List Char) : Option Int :=
  if ds = [] then none
  else if ds.all (fun c => c.isDigit) then
    let v : Int := if neg then -(digitsNatVal ds : Int) else (digitsNatVal ds : Int)
    if -9223372036854775808 ≤ v ∧ v ≤ 9223372036854775807 then some v else none
  else none

/-- Go `strconv.ParseInt(s, 10, 64)`: strip one optional sign, then parse
the digit run. -/
def goParseInt64L (cs : List Char) : Option Int :=
  match cs with
  | '+' :: ds => goParseDigits64 false ds
  | '-' :: ds => goParseDigits64 true ds
  | ds => goParseDigits64 false ds

/-- Go `parseLineRange` (add.go): "" is no range, "s,e" parses both halves and
requires `s ≤ e`, a single number `N` yields `start = end = N`. -/
def parseLineRange (raw : String) : Except String (Option Int × Option Int) :=
  if raw = "" then .ok (none, none)
  else
    match splitFirstComma raw.toList with
    | some (a, b) =>
      match goParseInt64L a with
      | none => .error "invalid line range"
      | some s =>
        match goParseInt64L b with
        | none => .error "invalid line range"
        | some e =>
          if s > e then .error "invalid line range: start must not exceed end"
          else .ok (some s, some e)
    | none =>
      match goParseInt64L raw.toList with
      | some n => .ok (some n, some n)
      | none => .error "invalid line number"

/-- Claim-side notion of "numeric text": an optional sign followed by a
non-empty digit run, with no magnitude bound. -/
def isIntegerText (s : String) : Bool :=
  let ds : List Char :=
    match s.toList with
    | '+' :: rest => rest
    | '-' :: rest => rest
    | cs => cs
  !ds.isEmpty && ds.all (fun c => c.isDigit)

/-- `AddCmd.Run`: replies resolve the parent by id prefix and copy its
commit/file/lines; fresh comments require the reviewer's cursor and parse
the optional line range.  `now`/`newID` stand for the generated timestamp
and UUIDv7. -/
def addCmdRun (st : Store) (reviewerName : String)
    (file line replyTo author message : String) (now newID : String) :
    Except String Store :=
  if !sessionExists st then .error "No review in progress" else
  let author1 := if author = "" then reviewerName else author
  if replyTo != "" then
    match findCommentByIdPfx st.comments replyTo with
    | none => .error "comment not found"
    | some parent =>
      .ok (insertComment
        { id := newID, parentId := some parent.id, commit := parent.commit,
          file := parent.file, startLine := parent.startLine, endLine := parent.endLine,
          body := message, resolvedAt := none, resolvedBy := none,
          createdAt := now, createdBy := author1 } st)
  else
    match getReviewer st reviewerName with
    | .error e => .error e
    | .ok reviewer =>
      match reviewer.currentSha with
      | none => .error "No commit selected. Run next first."
      | some commitSHA =>
        match parseLineRange line with
        | .error e => .error e
        | .ok (startLine, endLine) =>
          let file1 : Option String := if file = "" then none else some file
          .ok (insertComment
            { id := newID, parentId := none, commit := commitSHA,
              file := file1, startLine := startLine, endLine := endLine,
              body := message, resolvedAt := none, resolvedBy := none,
              createdAt := now, createdBy := author1 } st)

/-! ## Resolve / unresolve -/

/-- `ResolveCmd.Run`: root-only, rejects already-resolved; the update mirrors
`UPDATE comments SET resolved_at = ?, resolved_by = ? WHERE id = ? AND parent_id IS NULL`. -/
def resolveCmdRun (st : Store) (idPfx : String) (name : String) (now : String) :
    Except String Store :=
  if !sessionExists st then .error "No review in progress" else
  match findCommentByIdPfx st.comments idPfx with
  | none => .error "comment not found"
  | some comment =>
    if comment.parentId.isSome then .error "only root comments can be resolved"
    else if comment.resolvedAt.isSome then .error "thread is already resolved"
    else .ok { st with comments := st.comments.map (fun c =>
      if c.id = comment.id ∧ c.parentId = none
      then { c with resolvedAt := some now, resolvedBy := some name } else c) }

/-- `UnresolveCmd.Run`: root-only, rejects unresolved threads; the update is
`UPDATE comments SET resolved_at = NULL, resolved_by = NULL WHERE id = ?`. -/
def unresolveCmdRun (st : Store) (idPfx : String) : Except String Store :=
  if !sessionExists st then .error "No review in progress" else
  match findCommentByIdPfx st.comments idPfx with
  | none => .error "comment not found"
  | some comment =>
    if comment.parentId.isSome then .error "only root comments can be unresolved"
    else if !comment.resolvedAt.isSome then .error "thread is not resolved"
    else .ok { st with comments := st.comments.map (fun c =>
      if c.id = comment.id then { c with resolvedAt := none, resolvedBy := none } else c) }

/-! ## Start command: session bootstrap transaction -/

/-- `InsertSession`: the session table is single-row in this model; a second
insert is the constraint failure. -/
def insertSession (s : Session) (st : Store) : Except String Store :=
  match st.session with
  | some _ => .error "failed to insert session"
  | none => .ok { st with session := some s }

/-- `InsertCommit` with the schema constraints `sha PRIMARY KEY` and
`position UNIQUE`. -/
def insertCommit (c : Commit) (st : Store) : Except String Store :=
  if st.commits.any (fun k => k.sha == c.sha) then .error "failed to insert commit"
  else if st.commits.any (fun k => k.position == c.position) then
    .error "failed to insert commit"
  else .ok { st with commits := st.commits ++ [c] }

/-- `InsertReviewer` (`name PRIMARY KEY`, `current_sha` null). -/
def insertReviewer (name : String) (st : Store) : Except String Store :=
  if st.reviewers.any (fun r => r.name == name) then .error "failed to insert reviewer"
  else .ok { st with reviewers := st.reviewers ++ [⟨name, none⟩] }

/-- The loop body of `StartCmd.Run`'s transaction: insert commit `i` with
position `i` (`for i, sha := range commits`); `subj` is `g.Subject`. -/
def startInsertCommits (subj : String → String) : List String → Nat → Store →
    Except String Store
  | [], _, st => .ok st
  | sha :: rest, i, st =>
    match insertCommit ⟨sha, subj sha, i⟩ st with
    | .error e => .error e
    | .ok st1 => startInsertCommits subj rest (i + 1) st1

/-- The transaction body of `StartCmd.Run`: session row, all commit rows in
rev-list (oldest-first) order, then the initiating reviewer. -/
def startTxBody (shas : List String) (subj : String → String)
    (base branch createdAt reviewerName : String) (st : Store) : Except String Store :=
  match insertSession ⟨base, branch, createdAt⟩ st with
  | .error e => .error e
  | .ok st1 =>
    match startInsertCommits subj shas 0 st1 with
    | .error e => .error e
    | .ok st2 => insertReviewer reviewerName st2

/-- `Repository.WithTx`: run the body; commit its state on success, roll the
state back (return it unchanged) on failure. -/
def withTx (f : Store → Except String Store) (st : Store) : Store × Option String :=
  match f st with
  | .ok st1 => (st1, none)
  | .error e => (st, some e)

/-- The commit rows `startInsertCommits` creates from position `i` on. -/
def commitRows (subj : String → String) : List String → Nat → List Commit
  | [], _ => []
  | sha :: rest, i => ⟨sha, subj sha, i⟩ :: commitRows subj rest (i + 1)

/-! ## The working-copy model for the checkout step (C7)

Modelled from the spec: the external interface (§6) offers distinct
`checkout-to-ref (soft and forced)` operations and §4.2 lists checkout
failure as a fatal navigation outcome.  The semantics of the external `git`
binary is outside this repository: a plain (soft) `git checkout <ref>`
refuses to overwrite uncommitted local differences and fails, while
`git checkout --force <ref>` discards them.  `WorkTree.dirty` flags such
conflicting local differences. -/

/-- Abstract reviewer working copy: the checked-out point, the index tree,
and whether conflicting local differences are present. -/
structure WorkTree where
  headRef : String
  stagedRef : String
  dirty : Bool
deriving Repr, DecidableEq

/-- Modelled from the spec: the *soft* checkout-to-ref of §6 (what
`Git.Checkout`, i.e. `git checkout <ref> --quiet`, invokes) — it fails on
conflicting local differences instead of discarding them; and the index
overlay (`read-tree -u --reset`), which resets the staging area to the
target's tree. -/
def checkoutSoftVCS : VCS WorkTree where
  checkout := fun ref wt =>
    if wt.dirty then .error "local changes would be overwritten"
    else .ok { headRef := ref, stagedRef := ref, dirty := false }
  readTreeReset := fun ref wt => .ok { wt with stagedRef := ref }

/-- Modelled from the spec: the *forced* checkout-to-ref of §6 (what
`Git.CheckoutForce` invokes, used only at teardown) — it discards local
differences unconditionally. -/
def checkoutForced (ref : String) (_wt : WorkTree) : Except String WorkTree :=
  .ok { headRef := ref, stagedRef := ref, dirty := false }

/-! ## Example data used by the concrete witnesses -/

/-- A comment literal with the defaulted fields filled in. -/
def mkComment (id : String) (par : Option String) (commit : String) (creator : String) :
    Comment :=
  { id := id, parentId := par, commit := commit, file := none, startLine := none,
    endLine := none, body := id, resolvedAt := none, resolvedBy := none,
    createdAt := "t", createdBy := creator }

/-- A four-comment forest: thread a ← ab ← abc plus the lone root x. -/
def egComments : List Comment :=
  [mkComment "a" none "c1" "alice", mkComment "ab" (some "a") "c2" "bob",
   mkComment "abc" (some "ab") "c1" "carol", mkComment "x" none "c1" "bob"]

/-- A small active-session store over `egComments`. -/
def egStore : Store :=
  { session := some ⟨"base", "feature", "t0"⟩,
    commits := [⟨"c1", "m1", 0⟩, ⟨"c2", "m2", 1⟩],
    reviewers := [⟨"", some "c1"⟩],
    comments := egComments }

/-- `egStore` with the root "a" resolved by "bob". -/
def egStoreResolved : Store :=
  { egStore with comments :=
      [{ mkComment "a" none "c1" "alice" with resolvedAt := some "t1", resolvedBy := some "bob" },
       mkComment "ab" (some "a") "c2" "bob", mkComment "abc" (some "ab") "c1" "carol",
       mkComment "x" none "c1" "bob"] }

/-- A VCS interface whose checkout always fails — exercises the error paths. -/
def egVcsFail : VCS Bool :=
  ⟨fun _ _ => .error "checkout failed", fun _ _ => .error "read-tree failed"⟩

/-- A VCS interface that always succeeds, tracking nothing. -/
def egVcsOk : VCS Bool := ⟨fun _ ws => .ok ws, fun _ ws => .ok ws⟩

/-! ## Generic list helpers -/

/-- `List.contains` on strings decides membership. -/
theorem contains_true_iff {l : List String} {a : String} : l.contains a = true ↔ a ∈ l := by
  simp [List.contains_iff_exists_mem_beq, beq_iff_eq]

/-- Unique ids make the id projection injective on the table. -/
theorem nodup_id_eq {cs : List Comment} (hnd : (cs.map (fun c => c.id)).Nodup)
    {a b : Comment} (ha : a ∈ cs) (hb : b ∈ cs) (h : a.id = b.id) : a = b :=
  List.inj_on_of_nodup_map hnd ha hb h

/-! ## C3: the cursor write happens strictly after both VCS steps -/

/-- C3: for every navigation (`next` and `jump` both go through `jumpTo`),
the reviewer's cursor row is written only after the checkout of the parent
point and the index overlay of the target both succeed; if either fails the
call returns that error and no store write happens (the model returns no
store at all, so the caller keeps the unchanged one). -/
theorem jumpTo_cursor_after_vcs {σ : Type} (vcs : VCS σ) (ws : σ) (st : Store)
    (name : String) (target : Commit) (pr : String)
    (hpr : resolveParentRef st target = .ok pr) :
    (∀ e, vcs.checkout pr ws = .error e → jumpTo vcs ws st name target = .error e)
    ∧ (∀ ws1 e, vcs.checkout pr ws = .ok ws1 → vcs.readTreeReset target.sha ws1 = .error e →
        jumpTo vcs ws st name target = .error e)
    ∧ (∀ ws1 ws2, vcs.checkout pr ws = .ok ws1 → vcs.readTreeReset target.sha ws1 = .ok ws2 →
        jumpTo vcs ws st name target = .ok (ws2, updateReviewerCurrent st target.sha name))
    ∧ (∀ ws2 st2, jumpTo vcs ws st name target = .ok (ws2, st2) →
        st2 = updateReviewerCurrent st target.sha name ∧
        ∃ ws1, vcs.checkout pr ws = .ok ws1 ∧ vcs.readTreeReset target.sha ws1 = .ok ws2) := by
  have hj : jumpTo vcs ws st name target =
      (match vcs.checkout pr ws with
       | .error e => .error e
       | .ok ws1 =>
         match vcs.readTreeReset target.sha ws1 with
         | .error e => .error e
         | .ok ws2 => .ok (ws2, updateReviewerCurrent st target.sha name)) := by
    unfold jumpTo
    rw [hpr]
  rw [hj]
  refine ⟨fun e hc => by rw [hc], fun ws1 e hc hr => by rw [hc]; dsimp only; rw [hr],
    fun ws1 ws2 hc hr => by rw [hc]; dsimp only; rw [hr], ?_⟩
  intro ws2 st2 h
  cases hc : vcs.checkout pr ws with
  | error e => rw [hc] at h; cases h
  | ok ws1 =>
    rw [hc] at h
    dsimp only at h
    cases hr : vcs.readTreeReset target.sha ws1 with
    | error e => rw [hr] at h; cases h
    | ok ws2' =>
      rw [hr] at h
      cases h
      exact ⟨rfl, ws1, rfl, hr⟩

/-- Witness for C3 at a concrete store, target and failing VCS. -/
theorem jumpTo_cursor_after_vcs_witness :
    resolveParentRef egStore ⟨"c1", "m1", 0⟩ = .ok "base" ∧
    ((∀ e, egVcsFail.checkout "base" true = .error e →
        jumpTo egVcsFail true egStore "" ⟨"c1", "m1", 0⟩ = .error e)
    ∧ (∀ ws1 e, egVcsFail.checkout "base" true = .ok ws1 →
        egVcsFail.readTreeReset "c1" ws1 = .error e →
        jumpTo egVcsFail true egStore "" ⟨"c1", "m1", 0⟩ = .error e)
    ∧ (∀ ws1 ws2, egVcsFail.checkout "base" true = .ok ws1 →
        egVcsFail.readTreeReset "c1" ws1 = .ok ws2 →
        jumpTo egVcsFail true egStore "" ⟨"c1", "m1", 0⟩ =
          .ok (ws2, updateReviewerCurrent egStore "c1" ""))
    ∧ (∀ ws2 st2, jumpTo egVcsFail true egStore "" ⟨"c1", "m1", 0⟩ = .ok (ws2, st2) →
        st2 = updateReviewerCurrent egStore "c1" "" ∧
        ∃ ws1, egVcsFail.checkout "base" true = .ok ws1 ∧
          egVcsFail.readTreeReset "c1" ws1 = .ok ws2)) := by
  exact ⟨rfl, jumpTo_cursor_after_vcs egVcsFail true egStore "" ⟨"c1", "m1", 0⟩ "base" rfl⟩

/-! ## C4: advance targets 0 or current+1 and completes as a no-op success -/

/-- C4: `next` targets position 0 when the reviewer has no cursor, otherwise
the found position + 1; past the last position it returns success with the
completion message, leaving both the store and the working copy exactly as
they were, and otherwise it runs the navigation protocol on the commit at
the target index (whose position is the target index for a well-positioned
table). -/
theorem nextCmd_advance_or_complete {σ : Type} (vcs : VCS σ) (ws : σ) (st : Store)
    (name : String) (r : Reviewer)
    (hses : sessionExists st = true)
    (hr : getReviewer st name = .ok r) :
    (r.currentSha = none → (listCommits st).length = 0 →
        nextCmdRun vcs ws st name = .ok (ws, st, NextOutcome.completed))
    ∧ (r.currentSha = none → ∀ h : 0 < (listCommits st).length,
        nextCmdRun vcs ws st name =
          match jumpTo vcs ws st name ((listCommits st).get ⟨0, h⟩) with
          | .error e => .error e
          | .ok (ws1, st1) => .ok (ws1, st1, NextOutcome.advanced ((listCommits st).get ⟨0, h⟩)))
    ∧ (∀ sha pos, r.currentSha = some sha →
        findCommitPosition (listCommits st) sha = some pos →
        ((listCommits st).length ≤ pos + 1 →
          nextCmdRun vcs ws st name = .ok (ws, st, NextOutcome.completed))
        ∧ (∀ h : pos + 1 < (listCommits st).length,
            nextCmdRun vcs ws st name =
              match jumpTo vcs ws st name ((listCommits st).get ⟨pos + 1, h⟩) with
              | .error e => .error e
              | .ok (ws1, st1) =>
                .ok (ws1, st1, NextOutcome.advanced ((listCommits st).get ⟨pos + 1, h⟩))))
    ∧ (commitsWellPositioned st.commits = true → ∀ i, ∀ h : i < st.commits.length,
        (st.commits.get ⟨i, h⟩).position = i) := by
  have hbase : ∀ nextIdx : Nat,
      (nextCmdRun vcs ws st name =
        if !sessionExists st then .error "No review in progress" else
        match getReviewer st name with
        | .error e => .error e
        | .ok reviewer =>
          match (match reviewer.currentSha with
                 | none => Except.ok 0
                 | some sha =>
                   match findCommitPosition (listCommits st) sha with
                   | none => Except.error "current commit not found in commit list"
                   | some pos => Except.ok (pos + 1)) with
          | .error e => .error e
          | .ok nextIdx =>
            if h : nextIdx < (listCommits st).length then
              match jumpTo vcs ws st name ((listCommits st).get ⟨nextIdx, h⟩) with
              | .error e => .error e
              | .ok (ws1, st1) =>
                .ok (ws1, st1, NextOutcome.advanced ((listCommits st).get ⟨nextIdx, h⟩))
            else .ok (ws, st, NextOutcome.completed)) := fun _ => rfl
  have hred : nextCmdRun vcs ws st name =
      (match (match r.currentSha with
              | none => Except.ok 0
              | some sha =>
                match findCommitPosition (listCommits st) sha with
                | none => Except.error "current commit not found in commit list"
                | some pos => Except.ok (pos + 1)) with
       | .error e => .error e
       | .ok nextIdx =>
         if h : nextIdx < (listCommits st).length then
           match jumpTo vcs ws st name ((listCommits st).get ⟨nextIdx, h⟩) with
           | .error e => .error e
           | .ok (ws1, st1) =>
             .ok (ws1, st1, NextOutcome.advanced ((listCommits st).get ⟨nextIdx, h⟩))
         else .ok (ws, st, NextOutcome.completed)) := by
    rw [hbase 0, hses, hr]
    rfl
  refine ⟨?_, ?_, ?_, ?_⟩
  · intro hcur hlen
    rw [hred, hcur]
    dsimp only
    rw [dif_neg (by omega)]
  · intro hcur h
    rw [hred, hcur]
    dsimp only
    rw [dif_pos h]
  · intro sha pos hcur hpos
    constructor
    · intro hle
      rw [hred, hcur]
      dsimp only
      rw [hpos]
      dsimp only
      rw [dif_neg (Nat.not_lt.mpr hle)]
    · intro h
      rw [hred, hcur]
      dsimp only
      rw [hpos]
      dsimp only
      rw [dif_pos h]
  · intro hwp i h
    have := List.all_eq_true.mp hwp i (List.mem_range.mpr h)
    rw [List.getElem?_eq_getElem h] at this
    simpa [List.get_eq_getElem] using this

/-- Witness for C4: with the cursor on the last commit, `next` completes
without touching the store; with the cursor on the first, it advances. -/
theorem nextCmd_advance_or_complete_witness :
    sessionExists egStore = true ∧
    getReviewer egStore "" = .ok ⟨"", some "c1"⟩ ∧
    ((⟨"", some "c1"⟩ : Reviewer).currentSha = some "c1" →
      findCommitPosition (listCommits egStore) "c1" = some 0 →
      ∀ h : 0 + 1 < (listCommits egStore).length,
        nextCmdRun egVcsOk true egStore "" =
          match jumpTo egVcsOk true egStore "" ((listCommits egStore).get ⟨0 + 1, h⟩) with
          | .error e => .error e
          | .ok (ws1, st1) =>
            .ok (ws1, st1, NextOutcome.advanced ((listCommits egStore).get ⟨0 + 1, h⟩))) := by
  refine ⟨rfl, rfl, ?_⟩
  intro h1 h2 h
  exact ((nextCmd_advance_or_complete egVcsOk true egStore "" ⟨"", some "c1"⟩ rfl
    rfl).2.2.1 "c1" 0 h1 h2).2 h

/-! ## C5: resolve/unresolve admission rules -/

/-- C5: resolving a comment with a non-null parent always fails (and so does
unresolving one); resolving an already-resolved root fails; unresolving an
unresolved root fails with an error value (never a crash — both commands are
total functions into `Except`); a successful unresolve clears both
resolution fields of the thread back to null. -/
theorem resolve_unresolve_rules (st : Store) (idPfx name now : String) (comment : Comment)
    (hses : sessionExists st = true)
    (hfind : findCommentByIdPfx st.comments idPfx = some comment) :
    (comment.parentId.isSome = true →
      resolveCmdRun st idPfx name now = .error "only root comments can be resolved"
      ∧ unresolveCmdRun st idPfx = .error "only root comments can be unresolved")
    ∧ (comment.parentId = none → comment.resolvedAt.isSome = true →
        resolveCmdRun st idPfx name now = .error "thread is already resolved")
    ∧ (comment.parentId = none → comment.resolvedAt = none →
        unresolveCmdRun st idPfx = .error "thread is not resolved")
    ∧ (comment.parentId = none → comment.resolvedAt.isSome = true →
        ∃ st1, unresolveCmdRun st idPfx = .ok st1 ∧
          ∀ c ∈ st1.comments, c.id = comment.id →
            c.resolvedAt = none ∧ c.resolvedBy = none) := by
  have hres : resolveCmdRun st idPfx name now =
      (if comment.parentId.isSome then .error "only root comments can be resolved"
       else if comment.resolvedAt.isSome then .error "thread is already resolved"
       else .ok { st with comments := st.comments.map (fun c =>
         if c.id = comment.id ∧ c.parentId = none
         then { c with resolvedAt := some now, resolvedBy := some name } else c) }) := by
    unfold resolveCmdRun
    rw [hses, hfind]
    rfl
  have hunres : unresolveCmdRun st idPfx =
      (if comment.parentId.isSome then .error "only root comments can be unresolved"
       else if !comment.resolvedAt.isSome then .error "thread is not resolved"
       else .ok { st with comments := st.comments.map (fun c =>
         if c.id = comment.id then { c with resolvedAt := none, resolvedBy := none } else c) }) := by
    unfold unresolveCmdRun
    rw [hses, hfind]
    rfl
  refine ⟨?_, ?_, ?_, ?_⟩
  · intro hp
    rw [hres, hunres, if_pos hp, if_pos hp]
    exact ⟨rfl, rfl⟩
  · intro hp hra
    rw [hres, if_neg (by simp [hp]), if_pos hra]
  · intro hp hra
    rw [hunres, if_neg (by simp [hp]), if_pos (by simp [hra])]
  · intro hp hra
    rw [hunres, if_neg (by simp [hp]), if_neg (by simp [hra])]
    refine ⟨_, rfl, ?_⟩
    intro c hc hcid
    simp only [List.mem_map] at hc
    obtain ⟨c0, _hc0, hmap⟩ := hc
    by_cases h0 : c0.id = comment.id
    · rw [if_pos h0] at hmap
      rw [← hmap]
      exact ⟨rfl, rfl⟩
    · rw [if_neg h0] at hmap
      rw [← hmap] at hcid
      exact absurd hcid h0

/-- Witness for C5: unresolving a resolved root clears both fields. -/
theorem resolve_unresolve_rules_witness :
    sessionExists egStoreResolved = true ∧
    ((mkComment "a" none "c1" "alice" : Comment).parentId = none →
      ({ mkComment "a" none "c1" "alice" with
          resolvedAt := some "t1", resolvedBy := some "bob" } : Comment).resolvedAt.isSome = true →
      ∃ st1, unresolveCmdRun egStoreResolved "a" = .ok st1 ∧
        ∀ c ∈ st1.comments,
          c.id = ({ mkComment "a" none "c1" "alice" with
            resolvedAt := some "t1", resolvedBy := some "bob" } : Comment).id →
          c.resolvedAt = none ∧ c.resolvedBy = none) := by
  refine ⟨rfl, ?_⟩
  intro _ h2
  exact (resolve_unresolve_rules egStoreResolved "a" "n" "t2"
    ({ mkComment "a" none "c1" "alice" with
        resolvedAt := some "t1", resolvedBy := some "bob" }) rfl rfl).2.2.2 rfl h2

/-! ## C6: replies resolve their parent and copy its location -/

/-- C6: creating a reply fails with the NotFound error when no comment id
starts with the given parent prefix; on success the new comment copies
commit, file, start line and end line from the resolved parent — the
reviewer's cursor (the `reviewers` table, unconstrained here) plays no role
in the reply branch. -/
theorem add_reply_copies_parent (st : Store)
    (name file line replyTo author message now newID : String)
    (hses : sessionExists st = true) (hrt : replyTo ≠ "") :
    (findCommentByIdPfx st.comments replyTo = none →
      addCmdRun st name file line replyTo author message now newID =
        .error "comment not found")
    ∧ (∀ parent, findCommentByIdPfx st.comments replyTo = some parent →
        ∃ c, addCmdRun st name file line replyTo author message now newID =
            .ok (insertComment c st)
          ∧ c.parentId = some parent.id ∧ c.commit = parent.commit
          ∧ c.file = parent.file ∧ c.startLine = parent.startLine
          ∧ c.endLine = parent.endLine ∧ c.id = newID ∧ c.body = message) := by
  have hbr : (replyTo != "") = true := by
    simpa using hrt
  constructor
  · intro hnone
    unfold addCmdRun
    rw [hses, hbr, hnone]
    rfl
  · intro parent hsome
    refine ⟨{ id := newID, parentId := some parent.id, commit := parent.commit,
              file := parent.file, startLine := parent.startLine, endLine := parent.endLine,
              body := message, resolvedAt := none, resolvedBy := none, createdAt := now,
              createdBy := if author = "" then name else author },
      ?_, rfl, rfl, rfl, rfl, rfl, rfl, rfl⟩
    unfold addCmdRun
    rw [hses, hbr, hsome]
    rfl

/-- Witness for C6: replying to id prefix "ab" copies commit "c2" from the
parent, and a prefix matching nothing fails. -/
theorem add_reply_copies_parent_witness :
    sessionExists egStore = true ∧
    (findCommentByIdPfx egStore.comments "zz" = none →
      addCmdRun egStore "" "" "" "zz" "dana" "ok!" "t9" "id9" = .error "comment not found") ∧
    (∃ c, addCmdRun egStore "" "" "" "ab" "dana" "ok!" "t9" "id9" = .ok (insertComment c egStore)
      ∧ c.parentId = some (mkComment "ab" (some "a") "c2" "bob").id
      ∧ c.commit = (mkComment "ab" (some "a") "c2" "bob").commit
      ∧ c.file = (mkComment "ab" (some "a") "c2" "bob").file
      ∧ c.startLine = (mkComment "ab" (some "a") "c2" "bob").startLine
      ∧ c.endLine = (mkComment "ab" (some "a") "c2" "bob").endLine
      ∧ c.id = "id9" ∧ c.body = "ok!") := by
  refine ⟨rfl, ?_, ?_⟩
  · exact (add_reply_copies_parent egStore "" "" "" "zz" "dana" "ok!" "t9" "id9" rfl
      (by decide)).1
  · exact (add_reply_copies_parent egStore "" "" "" "ab" "dana" "ok!" "t9" "id9" rfl
      (by decide)).2 (mkComment "ab" (some "a") "c2" "bob") rfl

/-! ## C7: the navigation checkout is the soft one, not the forced one -/

/-- C7 counterexample: step 2 of the protocol is `Git.Checkout`
(`git checkout <parent> --quiet`), the *soft* checkout-to-ref.  On a working
copy carrying conflicting local differences it fails — the navigation call
errors out instead of forcing the tracked files to the parent point — so the
claim that step 2 "discards any local differences present" is false; the
forced variant (`checkoutForced`, used only at teardown) is the one that
discards. -/
theorem navCheckout_not_forced_cex :
    jumpTo checkoutSoftVCS ⟨"c1", "c1", true⟩ egStore "" ⟨"c2", "m2", 1⟩ =
      .error "local changes would be overwritten"
    ∧ ¬ (∀ wt : WorkTree, ∃ p, jumpTo checkoutSoftVCS wt egStore "" ⟨"c2", "m2", 1⟩ = .ok p)
    ∧ checkoutForced "c1" ⟨"c1", "c1", true⟩ = .ok ⟨"c1", "c1", false⟩ := by
  refine ⟨rfl, ?_, rfl⟩
  intro h
  obtain ⟨p, hp⟩ := h ⟨"c1", "c1", true⟩
  have : (Except.error "local changes would be overwritten" :
      Except String (WorkTree × Store)) = .ok p := hp
  exact Except.noConfusion this

/-- C7 amended: step 2 is the *soft* checkout of the parent point: on a
working copy without conflicting local differences it brings the tracked
state to exactly the parent point (and step 3 then overlays the target's
tree on the index); on a working copy with conflicting local differences it
fails — they are not discarded — and the whole navigation errors out.  The
unconditionally-discarding forced checkout exists but is not what
navigation invokes. -/
theorem navCheckout_soft_semantics (st : Store) (name : String) (target : Commit)
    (pr : String) (wt : WorkTree)
    (hpr : resolveParentRef st target = .ok pr) :
    (wt.dirty = false →
      jumpTo checkoutSoftVCS wt st name target =
        .ok (⟨pr, target.sha, false⟩, updateReviewerCurrent st target.sha name))
    ∧ (wt.dirty = true →
      jumpTo checkoutSoftVCS wt st name target = .error "local changes would be overwritten")
    ∧ (∀ r, checkoutForced r wt = .ok ⟨r, r, false⟩) := by
  refine ⟨?_, ?_, fun r => rfl⟩
  · intro hd
    have hcheck : checkoutSoftVCS.checkout pr wt = .ok ⟨pr, pr, false⟩ := by
      simp [checkoutSoftVCS, hd]
    unfold jumpTo
    rw [hpr]
    dsimp only
    rw [hcheck]
    rfl
  · intro hd
    have hcheck : checkoutSoftVCS.checkout pr wt = .error "local changes would be overwritten" := by
      simp [checkoutSoftVCS, hd]
    unfold jumpTo
    rw [hpr]
    dsimp only
    rw [hcheck]

/-- Witness for C7's amended theorem at a clean and a dirty working copy. -/
theorem navCheckout_soft_semantics_witness :
    resolveParentRef egStore ⟨"c2", "m2", 1⟩ = .ok "c1" ∧
    (((⟨"z", "z", false⟩ : WorkTree).dirty = false →
      jumpTo checkoutSoftVCS ⟨"z", "z", false⟩ egStore "" ⟨"c2", "m2", 1⟩ =
        .ok (⟨"c1", "c2", false⟩, updateReviewerCurrent egStore "c2" ""))
    ∧ ((⟨"z", "z", false⟩ : WorkTree).dirty = true →
      jumpTo checkoutSoftVCS ⟨"z", "z", false⟩ egStore "" ⟨"c2", "m2", 1⟩ =
        .error "local changes would be overwritten")
    ∧ (∀ r, checkoutForced r ⟨"z", "z", false⟩ = .ok ⟨r, r, false⟩)) := by
  exact ⟨rfl, navCheckout_soft_semantics egStore "" ⟨"c2", "m2", 1⟩ "c1" ⟨"z", "z", false⟩ rfl⟩

/-! ## C8: session bootstrap inserts contiguous 0-based positions atomically -/

/-- The sha column of the rows built by the start loop is the input list. -/
theorem commitRows_map_sha (subj : String → String) :
    ∀ (shas : List String) (i : Nat), (commitRows subj shas i).map (fun c => c.sha) = shas
  | [], _ => rfl
  | sha :: rest, i => by
      simp [commitRows, commitRows_map_sha subj rest (i + 1)]

/-- The position column of the rows built by the start loop is `i, i+1, …`. -/
theorem commitRows_map_position (subj : String → String) :
    ∀ (shas : List String) (i : Nat),
      (commitRows subj shas i).map (fun c => c.position) = List.range' i shas.length
  | [], _ => rfl
  | sha :: rest, i => by
      simp [commitRows, List.range'_succ, commitRows_map_position subj rest (i + 1)]

/-- The start loop succeeds on fresh shas and appends exactly its rows. -/
theorem startInsertCommits_ok (subj : String → String) :
    ∀ (shas : List String) (i : Nat) (st : Store), shas.Nodup →
      (∀ s ∈ shas, ∀ k ∈ st.commits, k.sha ≠ s) →
      (∀ k ∈ st.commits, k.position < i) →
      startInsertCommits subj shas i st =
        .ok { st with commits := st.commits ++ commitRows subj shas i }
  | [], i, st, _, _, _ => by simp [startInsertCommits, commitRows]
  | sha :: rest, i, st, hnd, hfresh, hpos => by
      have hsha : (st.commits.any fun k => k.sha == sha) = false := by
        rw [Bool.eq_false_iff]
        intro hcon
        obtain ⟨k, hk, hkeq⟩ := List.any_eq_true.mp hcon
        exact hfresh sha (List.mem_cons_self sha rest) k hk (eq_of_beq hkeq)
      have hposb : (st.commits.any fun k => k.position == i) = false := by
        rw [Bool.eq_false_iff]
        intro hcon
        obtain ⟨k, hk, hkeq⟩ := List.any_eq_true.mp hcon
        exact absurd (eq_of_beq hkeq) (Nat.ne_of_lt (hpos k hk))
      have hins : insertCommit ⟨sha, subj sha, i⟩ st =
          .ok { st with commits := st.commits ++ [⟨sha, subj sha, i⟩] } := by
        simp [insertCommit, hsha, hposb]
      have hrest := startInsertCommits_ok subj rest (i + 1)
          { st with commits := st.commits ++ [⟨sha, subj sha, i⟩] }
          (List.Nodup.of_cons hnd)
          (by
            intro s hs k hk
            rcases List.mem_append.mp hk with hk1 | hk2
            · exact hfresh s (List.mem_cons_of_mem sha hs) k hk1
            · have hks : k = ⟨sha, subj sha, i⟩ := by simpa using hk2
              rw [hks]
              intro hksha
              have hss : sha = s := hksha
              exact (List.nodup_cons.mp hnd).1 (by rw [hss]; exact hs))
          (by
            intro k hk
            rcases List.mem_append.mp hk with hk1 | hk2
            · exact Nat.lt_succ_of_lt (hpos k hk1)
            · have : k = ⟨sha, subj sha, i⟩ := by simpa using hk2
              rw [this]
              exact Nat.lt_succ_self i)
      have hstep : startInsertCommits subj (sha :: rest) i st =
          startInsertCommits subj rest (i + 1)
            { st with commits := st.commits ++ [⟨sha, subj sha, i⟩] } := by
        simp only [startInsertCommits]
        rw [hins]
      rw [hstep, hrest]
      simp [commitRows, List.append_assoc]

/-- C8: on a store with no session and an empty commits table, the start
transaction succeeds; the inserted commit rows carry shas in the given
(oldest-first) order with positions exactly `0, 1, …, n-1` — a contiguous
0-based sequence with no gaps or duplicates — together with the session row
and the initiating reviewer row; and `withTx` is all-or-nothing: whenever the
body fails, the returned store is exactly the input store. -/
theorem start_positions_contiguous (shas : List String) (subj : String → String)
    (base branch createdAt reviewerName : String) (st : Store)
    (hs : st.session = none) (hc : st.commits = []) (hnd : shas.Nodup)
    (hrv : (st.reviewers.any fun r => r.name == reviewerName) = false) :
    (∃ st1, withTx (startTxBody shas subj base branch createdAt reviewerName) st = (st1, none)
      ∧ st1.commits.map (fun c => c.position) = List.range shas.length
      ∧ st1.commits.map (fun c => c.sha) = shas
      ∧ st1.session = some ⟨base, branch, createdAt⟩
      ∧ ∃ rv ∈ st1.reviewers, rv.name = reviewerName ∧ rv.currentSha = none)
    ∧ (∀ (f : Store → Except String Store) (st0 : Store),
        (withTx f st0).2.isSome = true → (withTx f st0).1 = st0) := by
  constructor
  · have hsess : insertSession ⟨base, branch, createdAt⟩ st =
        .ok { st with session := some ⟨base, branch, createdAt⟩ } := by
      unfold insertSession
      rw [hs]
    have hloop := startInsertCommits_ok subj shas 0
        { st with session := some ⟨base, branch, createdAt⟩ }
        hnd (by intro s _ k hk; rw [hc] at hk; cases hk) (by intro k hk; rw [hc] at hk; cases hk)
    have hrev : insertReviewer reviewerName
        { st with session := some ⟨base, branch, createdAt⟩,
                  commits := st.commits ++ commitRows subj shas 0 } =
        .ok { st with session := some ⟨base, branch, createdAt⟩,
                      commits := st.commits ++ commitRows subj shas 0,
                      reviewers := st.reviewers ++ [⟨reviewerName, none⟩] } := by
      simp [insertReviewer, hrv]
    have hloop2 : startInsertCommits subj shas 0
        { st with session := some ⟨base, branch, createdAt⟩ } =
        .ok { st with session := some ⟨base, branch, createdAt⟩,
                      commits := st.commits ++ commitRows subj shas 0 } := hloop
    refine ⟨{ st with session := some ⟨base, branch, createdAt⟩,
                      commits := st.commits ++ commitRows subj shas 0,
                      reviewers := st.reviewers ++ [⟨reviewerName, none⟩] }, ?_, ?_, ?_, ?_, ?_⟩
    · unfold withTx startTxBody
      rw [hsess]
      dsimp only
      rw [hloop2]
      dsimp only
      rw [hrev]
    · rw [hc]
      simpa [commitRows_map_position subj shas 0] using (List.range_eq_range' shas.length).symm
    · rw [hc]
      simpa using commitRows_map_sha subj shas 0
    · rfl
    · exact ⟨⟨reviewerName, none⟩, by simp, rfl, rfl⟩
  · intro f st0 h
    unfold withTx at h ⊢
    cases hf : f st0 with
    | ok st1 => rw [hf] at h; simp at h
    | error e => rfl

/-- Witness for C8: a fresh two-commit bootstrap gets positions `[0, 1]`. -/
theorem start_positions_contiguous_witness :
    (["s1", "s2"] : List String).Nodup ∧
    ((∃ st1, withTx (startTxBody ["s1", "s2"] (fun _ => "m") "b" "br" "t" "rv")
          ⟨none, [], [], []⟩ = (st1, none)
        ∧ st1.commits.map (fun c => c.position) = List.range (["s1", "s2"] : List String).length
        ∧ st1.commits.map (fun c => c.sha) = ["s1", "s2"]
        ∧ st1.session = some ⟨"b", "br", "t"⟩
        ∧ ∃ rv ∈ st1.reviewers, rv.name = "rv" ∧ rv.currentSha = none)
      ∧ (∀ (f : Store → Except String Store) (st0 : Store),
          (withTx f st0).2.isSome = true → (withTx f st0).1 = st0)) := by
  refine ⟨by decide, ?_⟩
  exact start_positions_contiguous ["s1", "s2"] (fun _ => "m") "b" "br" "t" "rv"
    ⟨none, [], [], []⟩ rfl rfl (by decide) rfl

/-! ## C9: the line-range parser -/

/-- `splitFirstComma` splits exactly at the first comma. -/
theorem splitFirstComma_of_append : ∀ (a b : List Char), ',' ∉ a →
    splitFirstComma (a ++ ',' :: b) = some (a, b)
  | [], b, _ => by simp [splitFirstComma]
  | c :: a, b, h => by
      have hc : ¬ c = ',' := fun hceq => h (by rw [hceq]; exact List.mem_cons_self ',' a)
      have hrec := splitFirstComma_of_append a b (fun hm => h (List.mem_cons_of_mem c hm))
      simp [splitFirstComma, hc, hrec]

/-- `splitFirstComma` finds nothing in a comma-free list. -/
theorem splitFirstComma_of_no_comma : ∀ (cs : List Char), ',' ∉ cs →
    splitFirstComma cs = none
  | [], _ => rfl
  | c :: cs, h => by
      have hc : ¬ c = ',' := fun hceq => h (by rw [hceq]; exact List.mem_cons_self ',' cs)
      have hrec := splitFirstComma_of_no_comma cs (fun hm => h (List.mem_cons_of_mem c hm))
      simp [splitFirstComma, hc, hrec]

/-- C9 counterexample: `"9223372036854775808"` (2^63) is numeric text in the
single-number form — the claim's enumeration of rejected inputs predicts
acceptance with start = end = 2^63 — yet the parser rejects it, because
`strconv.ParseInt(·, 10, 64)` enforces the signed 64-bit range. -/
theorem parseLineRange_int64_cex :
    isIntegerText "9223372036854775808" = true
    ∧ parseLineRange "9223372036854775808" = .error "invalid line number" :=
  ⟨by decide, rfl⟩

/-- C9 amended: the parser accepts exactly the inputs whose components parse
under `strconv.ParseInt(·, 10, 64)` — any 64-bit-representable integers,
including zero and negative values (the sign conjunct below) — with
start ≤ end; "" is the empty range, "N" gives start = end = N, and the
rejections are non-numeric or out-of-64-bit-range components and ranges
with start > end. -/
theorem parseLineRange_spec :
    parseLineRange "" = .ok (none, none)
    ∧ (∀ (raw : String) (a b : List Char) (s e : Int),
        raw.toList = a ++ ',' :: b → ',' ∉ a →
        goParseInt64L a = some s → goParseInt64L b = some e →
        (s ≤ e → parseLineRange raw = .ok (some s, some e))
        ∧ (e < s → parseLineRange raw = .error "invalid line range: start must not exceed end"))
    ∧ (∀ (raw : String) (n : Int), raw ≠ "" → ',' ∉ raw.toList →
        goParseInt64L raw.toList = some n → parseLineRange raw = .ok (some n, some n))
    ∧ (∀ ds : List Char, ds ≠ [] → ds.all (fun c => c.isDigit) = true →
        -9223372036854775808 ≤ -(digitsNatVal ds : Int) →
        goParseInt64L ('-' :: ds) = some (-(digitsNatVal ds : Int)))
    ∧ (∀ (raw : String) (s e : Int), parseLineRange raw = .ok (some s, some e) → s ≤ e) := by
  refine ⟨rfl, ?_, ?_, ?_, ?_⟩
  · intro raw a b s e hlist hnc hs he
    have hne : ¬ raw = "" := by
      intro h
      rw [h] at hlist
      exact absurd hlist (by simp)
    constructor
    · intro hle
      unfold parseLineRange
      rw [if_neg hne, hlist, splitFirstComma_of_append a b hnc]
      dsimp only
      rw [hs]
      dsimp only
      rw [he]
      dsimp only
      rw [if_neg (not_lt.mpr hle)]
    · intro hlt
      unfold parseLineRange
      rw [if_neg hne, hlist, splitFirstComma_of_append a b hnc]
      dsimp only
      rw [hs]
      dsimp only
      rw [he]
      dsimp only
      rw [if_pos hlt]
  · intro raw n hne hnc hpar
    unfold parseLineRange
    rw [if_neg hne, splitFirstComma_of_no_comma raw.toList hnc]
    dsimp only
    rw [hpar]
  · intro ds hne hdig hrange
    have hstep : goParseInt64L ('-' :: ds) = goParseDigits64 true ds := rfl
    rw [hstep]
    unfold goParseDigits64
    rw [if_neg hne, if_pos hdig]
    dsimp only
    have h2 : -(digitsNatVal ds : Int) ≤ 9223372036854775807 := by omega
    rw [if_pos ⟨hrange, h2⟩]
    rfl
  · intro raw s e h
    unfold parseLineRange at h
    split at h
    · simp at h
    · split at h
      · split at h
        · cases h
        · split at h
          · cases h
          · split at h
            · cases h
            · rename_i s1 e1 hgt
              simp only [Except.ok.injEq, Prod.mk.injEq, Option.some.injEq] at h
              omega
      · split at h
        · simp only [Except.ok.injEq, Prod.mk.injEq, Option.some.injEq] at h
          omega
        · cases h

/-- Witness for C9's amended theorem: negative and zero line values parse. -/
theorem parseLineRange_spec_witness :
    parseLineRange "-5,0" = .ok (some (-5), some 0)
    ∧ parseLineRange "0" = .ok (some 0, some 0) :=
  ⟨(parseLineRange_spec.2.1 "-5,0" ['-', '5'] ['0'] (-5) 0 rfl (by decide) rfl rfl).1
      (by decide),
   parseLineRange_spec.2.2.1 "0" 0 (by decide) (by decide) rfl⟩

/-! ## Forest lemmas: well-formedness, `idLookup`, `findRoot` -/

/-- A non-empty-prefix match forces a non-empty sha. -/
theorem strLeads_ne_empty {s pat : String} (h : strLeads s pat = true) (hp : pat ≠ "") :
    s ≠ "" := by
  intro hs
  apply hp
  cases hpat : pat.toList with
  | nil =>
    cases pat with
    | mk data => cases hpat; rfl
  | cons c rest =>
    rw [hs] at h
    unfold strLeads at h
    rw [hpat] at h
    cases h

/-- Unpacking `wfForest`: unique ids. -/
theorem wfForest_nodup {cs : List Comment} {dep : String → Nat}
    (h : wfForest cs dep = true) : (cs.map (fun c => c.id)).Nodup := by
  unfold wfForest at h
  exact of_decide_eq_true (Bool.and_eq_true_iff.mp h).1

/-- Unpacking `wfForest`: each row is well-formed. -/
theorem wfForest_node {cs : List Comment} {dep : String → Nat}
    (h : wfForest cs dep = true) {c : Comment} (hc : c ∈ cs) : wfNode cs dep c = true :=
  List.all_eq_true.mp (Bool.and_eq_true_iff.mp h).2 c hc

/-- Unpacking `wfNode`: the depth bound. -/
theorem wfNode_depBound {cs : List Comment} {dep : String → Nat} {c : Comment}
    (h : wfNode cs dep c = true) : dep c.id < cs.length := by
  unfold wfNode at h
  exact of_decide_eq_true (Bool.and_eq_true_iff.mp h).1

/-- Unpacking `wfNode`: a parent link resolves and strictly drops the depth. -/
theorem wfNode_parent {cs : List Comment} {dep : String → Nat} {c : Comment} {p : String}
    (h : wfNode cs dep c = true) (hp : c.parentId = some p) :
    (∃ pc ∈ cs, pc.id = p) ∧ dep p < dep c.id := by
  unfold wfNode at h
  rw [hp] at h
  dsimp only at h
  obtain ⟨-, h2⟩ := Bool.and_eq_true_iff.mp h
  obtain ⟨ha, hd⟩ := Bool.and_eq_true_iff.mp h2
  refine ⟨?_, of_decide_eq_true hd⟩
  obtain ⟨pc, hpc, heq⟩ := List.any_eq_true.mp ha
  exact ⟨pc, hpc, eq_of_beq heq⟩

/-- What a successful `idLookup` returns is a row with the requested id. -/
theorem idLookup_mem {cs : List Comment} {p : String} {pc : Comment}
    (h : idLookup cs p = some pc) : pc ∈ cs ∧ pc.id = p := by
  unfold idLookup at h
  have h1 : pc ∈ cs.reverse := List.mem_of_find?_eq_some h
  have h2 := List.find?_some h
  exact ⟨List.mem_reverse.mp h1, by simpa using h2⟩

/-- With unique ids, `idLookup` finds exactly the row with that id. -/
theorem idLookup_eq_some {cs : List Comment} (hnd : (cs.map (fun c => c.id)).Nodup)
    {c : Comment} (hc : c ∈ cs) : idLookup cs c.id = some c := by
  cases h : idLookup cs c.id with
  | none =>
    exfalso
    unfold idLookup at h
    have := List.find?_eq_none.mp h c (List.mem_reverse.mpr hc)
    simp at this
  | some pc =>
    obtain ⟨hm, hid⟩ := idLookup_mem h
    rw [nodup_id_eq hnd hm hc hid]

/-- A root is its own `findRoot` at any fuel. -/
theorem findRoot_root (cs : List Comment) {c : Comment} (h : c.parentId = none) :
    ∀ fuel, findRoot cs fuel c = c := by
  intro fuel
  cases fuel with
  | zero => rfl
  | succ n =>
    unfold findRoot
    rw [h]

/-- One step of `findRoot` along a resolved parent link. -/
theorem findRoot_step {cs : List Comment} (hnd : (cs.map (fun c => c.id)).Nodup)
    {c pc : Comment} {p : String} (hp : c.parentId = some p) (hpc : pc ∈ cs)
    (hpid : pc.id = p) (fuel : Nat) :
    findRoot cs (fuel + 1) c = findRoot cs fuel pc := by
  have hl : idLookup cs p = some pc := by
    rw [← hpid]
    exact idLookup_eq_some hnd hpc
  show (match c.parentId with
        | none => c
        | some q =>
          match idLookup cs q with
          | none => c
          | some pc2 => findRoot cs fuel pc2) = findRoot cs fuel pc
  rw [hp]
  dsimp only
  rw [hl]

/-- Above the depth of the argument, one more unit of fuel changes nothing. -/
theorem findRoot_fuel_succ {cs : List Comment} {dep : String → Nat}
    (hwf : wfForest cs dep = true) :
    ∀ (fuel : Nat) (c : Comment), c ∈ cs → dep c.id ≤ fuel →
      findRoot cs (fuel + 1) c = findRoot cs fuel c := by
  intro fuel
  induction fuel with
  | zero =>
    intro c hc hd
    cases hp : c.parentId with
    | none => rw [findRoot_root cs hp, findRoot_root cs hp]
    | some p =>
      exfalso
      have := (wfNode_parent (wfForest_node hwf hc) hp).2
      omega
  | succ n ih =>
    intro c hc hd
    cases hp : c.parentId with
    | none => rw [findRoot_root cs hp, findRoot_root cs hp]
    | some p =>
      obtain ⟨⟨pc, hpc, hpid⟩, hdp⟩ := wfNode_parent (wfForest_node hwf hc) hp
      have hnd := wfForest_nodup hwf
      rw [findRoot_step hnd hp hpc hpid (n + 1), findRoot_step hnd hp hpc hpid n]
      exact ih pc hpc (by rw [hpid]; omega)

/-- Above the depth of the argument, fuel is irrelevant. -/
theorem findRoot_fuel_eq {cs : List Comment} {dep : String → Nat}
    (hwf : wfForest cs dep = true) {c : Comment} (hc : c ∈ cs) {f1 f2 : Nat}
    (hd : dep c.id ≤ f1) (h12 : f1 ≤ f2) :
    findRoot cs f2 c = findRoot cs f1 c := by
  obtain ⟨k, rfl⟩ : ∃ k, f2 = f1 + k := ⟨f2 - f1, by omega⟩
  clear h12
  induction k with
  | zero => rfl
  | succ n ih =>
    rw [show f1 + (n + 1) = (f1 + n) + 1 by omega]
    rw [findRoot_fuel_succ hwf (f1 + n) c hc (by omega), ih]

/-- A comment that is a root cannot be a proper descendant: being reachable
from a root `r` and being a root itself forces equality. -/
theorem descendant_root_eq {cs : List Comment} (hnd : (cs.map (fun c => c.id)).Nodup)
    {r c : Comment} (hr : r ∈ cs) (hc : c ∈ cs) (hcroot : c.parentId = none)
    (hdesc : Descendant cs r.id c.id) : c = r := by
  rcases Relation.ReflTransGen.cases_tail hdesc with heq | ⟨y, _, hrel⟩
  · exact nodup_id_eq hnd hc hr heq
  · obtain ⟨cx, hcx, hcxid, hcxp⟩ := hrel
    have : cx = c := nodup_id_eq hnd hcx hc hcxid
    rw [this] at hcxp
    rw [hcroot] at hcxp
    cases hcxp

/-- Every comment reachable from a root computes that root via `findRoot`
with table-size fuel (what `filterComments` uses). -/
theorem findRoot_of_descendant {cs : List Comment} {dep : String → Nat}
    (hwf : wfForest cs dep = true) {r : Comment} (hr : r ∈ cs)
    (hroot : r.parentId = none) {x : String} (hdesc : Descendant cs r.id x) :
    ∀ c ∈ cs, c.id = x → findRoot cs cs.length c = r := by
  have hnd := wfForest_nodup hwf
  induction hdesc with
  | refl =>
    intro c hc hid
    rw [nodup_id_eq hnd hc hr hid]
    exact findRoot_root cs hroot cs.length
  | tail hyx hrel ih =>
    rename_i y z
    intro c hc hid
    obtain ⟨cx, hcx, hcxid, hcxp⟩ := hrel
    have hceq : cx = c := nodup_id_eq hnd hcx hc (by rw [hcxid, hid])
    rw [hceq] at hcxp
    obtain ⟨⟨pc, hpc, hpid⟩, hdp⟩ := wfNode_parent (wfForest_node hwf hc) hcxp
    obtain ⟨m, hm⟩ : ∃ m, cs.length = m + 1 :=
      Nat.exists_eq_succ_of_ne_zero (Nat.pos_iff_ne_zero.mp (List.length_pos.mpr
        (List.ne_nil_of_mem hc)))
    have hdc : dep c.id < cs.length := wfNode_depBound (wfForest_node hwf hc)
    have hdpc : dep pc.id ≤ m := by
      rw [hpid]
      omega
    calc findRoot cs cs.length c
        = findRoot cs (m + 1) c := by rw [hm]
      _ = findRoot cs m pc := findRoot_step hnd hcxp hpc hpid m
      _ = findRoot cs cs.length pc := by
          rw [hm]
          exact (findRoot_fuel_eq hwf hpc hdpc (Nat.le_succ m)).symm
      _ = r := ih pc hpc hpid

/-! ## `filterComments` branch lemmas -/

/-- With no active filter, `filterComments` returns everything. -/
theorem filterComments_no_filter (cs : List Comment) (commits : List Commit)
    {commit : String} {unresolved : Bool} {creator file : String}
    (h : (commit != "" || unresolved || creator != "" || file != "") = false) :
    filterComments cs commits commit unresolved creator file = cs := by
  unfold filterComments
  dsimp only
  rw [h]
  rfl

/-- Commit filter active but matching no session commit: empty result (and
no error — the function has no error channel). -/
theorem filterComments_no_match (cs : List Comment) (commits : List Commit)
    {commit : String} {unresolved : Bool} {creator file : String}
    (hc : commit ≠ "")
    (hnone : commits.find? (fun cm => strLeads cm.sha commit) = none) :
    filterComments cs commits commit unresolved creator file = [] := by
  have hcb : (commit != "") = true := by simpa using hc
  have hres : resolveCommitSHA commits commit = "" := by
    unfold resolveCommitSHA
    rw [hcb, hnone]
    rfl
  unfold filterComments
  dsimp only
  rw [hcb, hres]
  rfl

/-- The main branch: some filter is active and the commit filter (if any)
resolved, so the result is the two-pass root-then-descendants filter. -/
theorem filterComments_filter_eq (cs : List Comment) (commits : List Commit)
    {commit : String} {unresolved : Bool} {creator file : String}
    (hf : (commit != "" || unresolved || creator != "" || file != "") = true)
    (hok : (commit != "" && (resolveCommitSHA commits commit == "")) = false) :
    filterComments cs commits commit unresolved creator file =
      cs.filter (fun cm =>
        match cm.parentId with
        | none =>
          (rootIDsOf cs (resolveCommitSHA commits commit) unresolved creator file).contains
            cm.id
        | some _ =>
          (rootIDsOf cs (resolveCommitSHA commits commit) unresolved creator file).contains
            (findRoot cs cs.length cm).id) := by
  unfold filterComments
  dsimp only
  rw [hf, hok]
  rfl

/-- Membership in the passing-root id set. -/
theorem contains_rootIDsOf_iff {cs : List Comment} {msha : String} {u : Bool}
    {cr f x : String} :
    (rootIDsOf cs msha u cr f).contains x = true ↔
      ∃ c ∈ cs, rootPassesB msha u cr f c = true ∧ c.id = x := by
  rw [contains_true_iff]
  unfold rootIDsOf
  constructor
  · intro hx
    obtain ⟨c, hc, hcid⟩ := List.mem_map.mp hx
    obtain ⟨hc1, hc2⟩ := List.mem_filter.mp hc
    exact ⟨c, hc1, hc2, hcid⟩
  · rintro ⟨c, hc, hp, rfl⟩
    exact List.mem_map.mpr ⟨c, List.mem_filter.mpr ⟨hc, hp⟩, rfl⟩

/-- For a root, the code's filter conditions coincide with the spec-side
"satisfies all active filters" whenever the commit filter resolved. -/
theorem rootPassesB_eq_satisfies {commits : List Commit} {commit : String} {u : Bool}
    {cr f : String} {r : Comment} (hroot : r.parentId = none)
    (hok : (commit != "" && (resolveCommitSHA commits commit == "")) = false) :
    rootPassesB (resolveCommitSHA commits commit) u cr f r =
      rootSatisfiesFilters commits commit u cr f r := by
  by_cases hc : commit = ""
  · subst hc
    unfold rootPassesB rootSatisfiesFilters resolveCommitSHA
    rw [hroot]
    simp [bne, Bool.not_not, Bool.and_assoc]
  · have hcb : (commit != "") = true := by simpa using hc
    rw [hcb] at hok
    have hne : resolveCommitSHA commits commit ≠ "" := by simpa using hok
    cases hfind : commits.find? (fun cm => strLeads cm.sha commit) with
    | none =>
      exfalso
      apply hne
      unfold resolveCommitSHA
      rw [hcb, hfind]
      rfl
    | some cm =>
      have hres : resolveCommitSHA commits commit = cm.sha := by
        unfold resolveCommitSHA
        rw [hcb, hfind]
        rfl
      rw [hres] at hne ⊢
      unfold rootPassesB rootSatisfiesFilters
      rw [hroot, hfind]
      have hsb : (cm.sha == "") = false := by simpa using hne
      have hcc : (commit == "") = false := by simpa using hc
      simp [hsb, hcc, bne, Bool.not_not, Bool.and_assoc]

/-- For a root, the code's filter conditions with a resolved commit sha are
the sha test plus the three other filters. -/
theorem rootPassesB_sha {msha : String} (hne : msha ≠ "") {u : Bool} {cr f : String}
    {r : Comment} (hroot : r.parentId = none) :
    rootPassesB msha u cr f r = ((r.commit == msha) && rootPassesOtherFilters u cr f r) := by
  unfold rootPassesB rootPassesOtherFilters
  have hb : (msha != "") = true := by simpa using hne
  have hsb : (msha == "") = false := by simpa using hne
  rw [hroot]
  simp [hb, hsb, bne, Bool.not_not, Bool.and_assoc]

/-! ## C2: root filtering plus full descendant inclusion -/

/-- C2: for every combination of the four list filters, a root comment lands
in the result exactly when it satisfies all active filters; every comment of
cs that is a (reflexive-transitive) descendant of an included root is
included regardless of its own attributes; and with no active filter the
whole comment list is returned unchanged. -/
theorem filterComments_roots_and_descendants (cs : List Comment) (commits : List Commit)
    (commit : String) (unresolved : Bool) (creator file : String)
    (dep : String → Nat) (hwf : wfForest cs dep = true) :
    ((commit != "" || unresolved || creator != "" || file != "") = false →
      filterComments cs commits commit unresolved creator file = cs)
    ∧ (∀ r ∈ cs, r.parentId = none →
        (r ∈ filterComments cs commits commit unresolved creator file ↔
          rootSatisfiesFilters commits commit unresolved creator file r = true))
    ∧ (∀ r ∈ cs, r.parentId = none →
        rootSatisfiesFilters commits commit unresolved creator file r = true →
        ∀ c ∈ cs, Descendant cs r.id c.id →
          c ∈ filterComments cs commits commit unresolved creator file) := by
  have hnd := wfForest_nodup hwf
  by_cases hf : (commit != "" || unresolved || creator != "" || file != "") = true
  case neg =>
    have hf0 : (commit != "" || unresolved || creator != "" || file != "") = false :=
      Bool.eq_false_iff.mpr hf
    obtain ⟨⟨⟨h1, h2⟩, h3⟩, h4⟩ :
        ((commit = "" ∧ unresolved = false) ∧ creator = "") ∧ file = "" := by
      simpa using hf0
    have hsat : ∀ r : Comment, rootSatisfiesFilters commits commit unresolved creator file r
        = true := by
      intro r
      unfold rootSatisfiesFilters
      rw [h1, h2, h3, h4]
      rfl
    refine ⟨fun _ => filterComments_no_filter cs commits hf0, ?_, ?_⟩
    · intro r hr _
      rw [filterComments_no_filter cs commits hf0]
      exact ⟨fun _ => hsat r, fun _ => hr⟩
    · intro r _ _ _ c hc _
      rw [filterComments_no_filter cs commits hf0]
      exact hc
  case pos =>
    have hbadfacts : (commit != "" && (resolveCommitSHA commits commit == "")) = true →
        filterComments cs commits commit unresolved creator file = [] ∧
        ∀ r : Comment, rootSatisfiesFilters commits commit unresolved creator file r
          = false := by
      intro hok
      have hcb : (commit != "") = true := (Bool.and_eq_true_iff.mp hok).1
      have hc : commit ≠ "" := by simpa using hcb
      have hres0 : resolveCommitSHA commits commit = "" := by
        have := (Bool.and_eq_true_iff.mp hok).2
        simpa using this
      have hfind : commits.find? (fun cm => strLeads cm.sha commit) = none := by
        cases hfind : commits.find? (fun cm => strLeads cm.sha commit) with
        | none => rfl
        | some cm =>
          exfalso
          have hlead : strLeads cm.sha commit = true := by
            have := List.find?_some hfind
            simpa using this
          have hsha : cm.sha ≠ "" := strLeads_ne_empty hlead hc
          apply hsha
          rw [← hres0]
          unfold resolveCommitSHA
          rw [hcb, hfind]
          rfl
      refine ⟨filterComments_no_match cs commits hc hfind, ?_⟩
      intro r
      unfold rootSatisfiesFilters
      rw [hfind]
      simp [hc]
    refine ⟨fun h0 => absurd hf (by rw [h0]; exact Bool.false_ne_true), ?_, ?_⟩
    · -- root membership characterization
      intro r hr hroot
      by_cases hok : (commit != "" && (resolveCommitSHA commits commit == "")) = true
      · obtain ⟨hempty, hnosat⟩ := hbadfacts hok
        rw [hempty, hnosat r]
        exact ⟨fun hmem => (nomatch hmem), fun hfalse => (nomatch hfalse)⟩
      · have hok0 : (commit != "" && (resolveCommitSHA commits commit == "")) = false :=
          Bool.eq_false_iff.mpr hok
        rw [filterComments_filter_eq cs commits hf hok0, List.mem_filter]
        have hpred : (match r.parentId with
            | none =>
              (rootIDsOf cs (resolveCommitSHA commits commit) unresolved creator
                file).contains r.id
            | some _ =>
              (rootIDsOf cs (resolveCommitSHA commits commit) unresolved creator
                file).contains (findRoot cs cs.length r).id) =
            (rootIDsOf cs (resolveCommitSHA commits commit) unresolved creator
              file).contains r.id := by
          rw [hroot]
        constructor
        · rintro ⟨-, hcont⟩
          rw [hpred] at hcont
          obtain ⟨c, hcmem, hcpass, hcid⟩ := contains_rootIDsOf_iff.mp hcont
          have hcr : c = r := nodup_id_eq hnd hcmem hr hcid
          rw [hcr] at hcpass
          rw [← rootPassesB_eq_satisfies hroot hok0]
          exact hcpass
        · intro hsat
          refine ⟨hr, ?_⟩
          rw [hpred]
          refine contains_rootIDsOf_iff.mpr ⟨r, hr, ?_, rfl⟩
          rw [rootPassesB_eq_satisfies hroot hok0]
          exact hsat
    · -- descendant inclusion
      intro r hr hroot hsat c hc hdesc
      by_cases hok : (commit != "" && (resolveCommitSHA commits commit == "")) = true
      · obtain ⟨-, hnosat⟩ := hbadfacts hok
        rw [hnosat r] at hsat
        cases hsat
      · have hok0 : (commit != "" && (resolveCommitSHA commits commit == "")) = false :=
          Bool.eq_false_iff.mpr hok
        rw [filterComments_filter_eq cs commits hf hok0, List.mem_filter]
        refine ⟨hc, ?_⟩
        have hrpass : rootPassesB (resolveCommitSHA commits commit) unresolved creator file
            r = true := by
          rw [rootPassesB_eq_satisfies hroot hok0]
          exact hsat
        cases hcp : c.parentId with
        | none =>
          have hcr : c = r := descendant_root_eq hnd hr hc hcp hdesc
          dsimp only
          exact contains_rootIDsOf_iff.mpr ⟨r, hr, hrpass, by rw [hcr]⟩
        | some p =>
          dsimp only
          have hfr : findRoot cs cs.length c = r :=
            findRoot_of_descendant hwf hr hroot hdesc c hc rfl
          rw [hfr]
          exact contains_rootIDsOf_iff.mpr ⟨r, hr, hrpass, rfl⟩

/-- Witness for C2 on the example forest, filtering by creator "alice": the
thread a ← ab ← abc is kept (replies by other creators included), the lone
root x by "bob" is excluded. -/
theorem filterComments_roots_and_descendants_witness :
    wfForest egComments (fun s => s.length) = true ∧
    ((mkComment "a" none "c1" "alice" ∈ egComments →
        (mkComment "a" none "c1" "alice" : Comment).parentId = none →
        rootSatisfiesFilters [] "" false "alice" "" (mkComment "a" none "c1" "alice") = true →
        ∀ c ∈ egComments, Descendant egComments "a" c.id →
          c ∈ filterComments egComments [] "" false "alice" "")) := by
  refine ⟨by decide, ?_⟩
  exact (filterComments_roots_and_descendants egComments [] "" false "alice" ""
    (fun s => s.length) (by decide)).2.2 (mkComment "a" none "c1" "alice")

/-! ## C10: ambiguous commit prefix uses the first match; no match is empty -/

/-- C10: when the list commit filter's prefix matches no session commit the
result is empty (nil) — `filterComments` has no error channel, so nothing is
raised — and when it matches one or more commits, filtering silently uses
the *first* matching commit in list order: an included root is exactly one
attached to that first match's sha (and passing the other filters), even if
later session commits also match the prefix. -/
theorem commitFilter_first_match (cs : List Comment) (commits : List Commit)
    (commit : String) (unresolved : Bool) (creator file : String)
    (hnd : (cs.map (fun c => c.id)).Nodup) (hc : commit ≠ "") :
    (commits.find? (fun cm => strLeads cm.sha commit) = none →
      filterComments cs commits commit unresolved creator file = [])
    ∧ (∀ cm1, commits.find? (fun cm => strLeads cm.sha commit) = some cm1 →
        cm1 ∈ commits ∧ strLeads cm1.sha commit = true ∧
        ∀ r ∈ cs, r.parentId = none →
          (r ∈ filterComments cs commits commit unresolved creator file ↔
            (r.commit = cm1.sha ∧ rootPassesOtherFilters unresolved creator file r = true))) := by
  have hcb : (commit != "") = true := by simpa using hc
  constructor
  · intro hnone
    exact filterComments_no_match cs commits hc hnone
  · intro cm1 hfind
    have hlead : strLeads cm1.sha commit = true := by
      have := List.find?_some hfind
      simpa using this
    have hsha : cm1.sha ≠ "" := strLeads_ne_empty hlead hc
    have hres : resolveCommitSHA commits commit = cm1.sha := by
      unfold resolveCommitSHA
      rw [hcb, hfind]
      rfl
    have hok0 : (commit != "" && (resolveCommitSHA commits commit == "")) = false := by
      rw [hres]
      simp [hsha]
    have hf : (commit != "" || unresolved || creator != "" || file != "") = true := by
      rw [hcb]
      rfl
    refine ⟨List.mem_of_find?_eq_some hfind, hlead, ?_⟩
    intro r hr hroot
    rw [filterComments_filter_eq cs commits hf hok0, List.mem_filter]
    have hpred : (match r.parentId with
        | none =>
          (rootIDsOf cs (resolveCommitSHA commits commit) unresolved creator
            file).contains r.id
        | some _ =>
          (rootIDsOf cs (resolveCommitSHA commits commit) unresolved creator
            file).contains (findRoot cs cs.length r).id) =
        (rootIDsOf cs (resolveCommitSHA commits commit) unresolved creator
          file).contains r.id := by
      rw [hroot]
    rw [hpred]
    constructor
    · rintro ⟨-, hcont⟩
      obtain ⟨c, hcmem, hcpass, hcid⟩ := contains_rootIDsOf_iff.mp hcont
      have hceq : c = r := nodup_id_eq hnd hcmem hr hcid
      rw [hceq] at hcpass
      rw [hres, rootPassesB_sha hsha hroot] at hcpass
      obtain ⟨hcommit, hother⟩ := Bool.and_eq_true_iff.mp hcpass
      exact ⟨eq_of_beq hcommit, hother⟩
    · rintro ⟨hcommit, hother⟩
      refine ⟨hr, contains_rootIDsOf_iff.mpr ⟨r, hr, ?_, rfl⟩⟩
      rw [hres, rootPassesB_sha hsha hroot]
      exact Bool.and_eq_true_iff.mpr ⟨by simpa using hcommit, hother⟩

/-- Witness for C10 on a two-commit session where the prefix "c" matches
both commits: a root on the second match is excluded. -/
theorem commitFilter_first_match_witness :
    (egComments.map (fun c => c.id)).Nodup ∧ ("c" : String) ≠ "" ∧
    (([⟨"c1", "m1", 0⟩, ⟨"c2", "m2", 1⟩] : List Commit).find?
        (fun cm => strLeads cm.sha "c") = some ⟨"c1", "m1", 0⟩ →
      (⟨"c1", "m1", 0⟩ : Commit) ∈ ([⟨"c1", "m1", 0⟩, ⟨"c2", "m2", 1⟩] : List Commit) ∧
      strLeads "c1" "c" = true ∧
      ∀ r ∈ egComments, r.parentId = none →
        (r ∈ filterComments egComments [⟨"c1", "m1", 0⟩, ⟨"c2", "m2", 1⟩] "c" false "" "" ↔
          (r.commit = "c1" ∧ rootPassesOtherFilters false "" "" r = true))) := by
  refine ⟨by decide, by decide, ?_⟩
  exact (commitFilter_first_match egComments [⟨"c1", "m1", 0⟩, ⟨"c2", "m2", 1⟩] "c"
    false "" "" (by decide) (by decide)).2 ⟨"c1", "m1", 0⟩


/-! ## Cascade-delete lemmas (C1) -/

/-- The resolved target of a comment-prefix lookup is a table row. -/
theorem findCommentByIdPfx_mem {cs : List Comment} {pfx : String} {target : Comment}
    (h : findCommentByIdPfx cs pfx = some target) : target ∈ cs := by
  unfold findCommentByIdPfx at h
  exact List.mem_of_find?_eq_some h

/-- The dead set only grows. -/
theorem cascadeGrow_subset (cs : List Comment) :
    ∀ (fuel : Nat) (dead : List String), dead ⊆ cascadeGrow cs fuel dead := by
  intro fuel
  induction fuel with
  | zero => intro dead x hx; exact hx
  | succ n ih =>
    intro dead
    unfold cascadeGrow
    dsimp only
    split
    · exact fun x hx => hx
    · exact fun x hx => ih _ (List.mem_append_left _ hx)

/-- Everything the cascade marks is reachable from the initially dead ids. -/
theorem cascadeGrow_sound (cs : List Comment) (t : String) :
    ∀ (fuel : Nat) (dead : List String), (∀ d ∈ dead, Descendant cs t d) →
      ∀ x ∈ cascadeGrow cs fuel dead, Descendant cs t x := by
  intro fuel
  induction fuel with
  | zero => intro dead hdead x hx; exact hdead x hx
  | succ n ih =>
    intro dead hdead x hx
    unfold cascadeGrow at hx
    dsimp only at hx
    split at hx
    · exact hdead x hx
    · refine ih _ ?_ x hx
      intro d hd
      rcases List.mem_append.mp hd with hd1 | hd2
      · exact hdead d hd1
      · obtain ⟨c, hcf, rfl⟩ := List.mem_map.mp hd2
        obtain ⟨hcmem, hcond⟩ := List.mem_filter.mp hcf
        obtain ⟨hpd, -⟩ := Bool.and_eq_true_iff.mp hcond
        unfold parentDead at hpd
        split at hpd
        · rename_i p heq
          exact Relation.ReflTransGen.tail (hdead p (contains_true_iff.mp hpd))
            ⟨c, hcmem, rfl, heq⟩
        · cases hpd

/-- With table-size fuel the cascade saturates: the final dead set is closed
under the child relation. -/
theorem cascadeGrow_closed (cs : List Comment) (hnd : (cs.map (fun c => c.id)).Nodup) :
    ∀ (fuel : Nat) (dead : List String), dead.Nodup →
      (∀ d ∈ dead, d ∈ cs.map (fun c => c.id)) →
      cs.length + 1 ≤ fuel + dead.length →
      ∀ c ∈ cs, parentDead (cascadeGrow cs fuel dead) c = true →
        c.id ∈ cascadeGrow cs fuel dead := by
  intro fuel
  induction fuel with
  | zero =>
    intro dead hdnd hdsub hlen
    exfalso
    have hsub : dead ⊆ cs.map (fun c => c.id) := hdsub
    have hle := (hdnd.subperm hsub).length_le
    rw [List.length_map] at hle
    omega
  | succ n ih =>
    intro dead hdnd hdsub hlen c hc hpd
    by_cases hadd : ((cs.filter (fun c => parentDead dead c && !dead.contains c.id)).map
        (fun c => c.id)) = []
    · have hgrow : cascadeGrow cs (n + 1) dead = dead := by
        unfold cascadeGrow
        dsimp only
        rw [if_pos hadd]
      rw [hgrow] at hpd ⊢
      have hfil := List.filter_eq_nil_iff.mp (List.map_eq_nil_iff.mp hadd)
      unfold parentDead at hpd
      split at hpd
      · rename_i p heq
        have hpdc : parentDead dead c = true := by
          unfold parentDead
          rw [heq]
          exact hpd
        by_contra hnotin
        apply hfil c hc
        rw [hpdc]
        have : dead.contains c.id = false :=
          Bool.eq_false_iff.mpr (fun hcon => hnotin (contains_true_iff.mp hcon))
        rw [this]
        rfl
      · cases hpd
    · have hgrow : cascadeGrow cs (n + 1) dead =
          cascadeGrow cs n (dead ++ (cs.filter
            (fun c => parentDead dead c && !dead.contains c.id)).map (fun c => c.id)) := by
        conv_lhs => unfold cascadeGrow
        dsimp only
        rw [if_neg hadd]
      rw [hgrow] at hpd ⊢
      have haddnd : ((cs.filter (fun c => parentDead dead c && !dead.contains c.id)).map
          (fun c => c.id)).Nodup := by
        have hsl : List.Sublist ((cs.filter
              (fun c => parentDead dead c && !dead.contains c.id)).map (fun c => c.id))
            (cs.map (fun c => c.id)) :=
          List.Sublist.map _ (List.filter_sublist cs)
        exact hnd.sublist hsl
      have hdisj : dead.Disjoint ((cs.filter
          (fun c => parentDead dead c && !dead.contains c.id)).map (fun c => c.id)) := by
        intro a ha hma
        obtain ⟨c1, hc1f, rfl⟩ := List.mem_map.mp hma
        obtain ⟨-, hcond⟩ := List.mem_filter.mp hc1f
        obtain ⟨-, hnc⟩ := Bool.and_eq_true_iff.mp hcond
        rw [contains_true_iff.mpr ha] at hnc
        cases hnc
      apply ih _ (List.nodup_append.mpr ⟨hdnd, haddnd, hdisj⟩) ?_ ?_ c hc hpd
      · intro d hd
        rcases List.mem_append.mp hd with hd1 | hd2
        · exact hdsub d hd1
        · obtain ⟨c1, hc1f, rfl⟩ := List.mem_map.mp hd2
          exact List.mem_map.mpr ⟨c1, (List.mem_filter.mp hc1f).1, rfl⟩
      · have hpos : 0 < ((cs.filter (fun c => parentDead dead c && !dead.contains c.id)).map
            (fun c => c.id)).length := List.length_pos.mpr hadd
        rw [List.length_append]
        omega

/-- The cascade starting from a table id marks exactly the descendants. -/
theorem cascadeGrow_mem_iff (cs : List Comment) (t : String)
    (hnd : (cs.map (fun c => c.id)).Nodup) (ht : t ∈ cs.map (fun c => c.id)) (x : String) :
    x ∈ cascadeGrow cs cs.length [t] ↔ Descendant cs t x := by
  constructor
  · intro hx
    refine cascadeGrow_sound cs t cs.length [t] ?_ x hx
    intro d hd
    rw [List.mem_singleton.mp hd]
    exact Relation.ReflTransGen.refl
  · intro hdesc
    induction hdesc with
    | refl => exact cascadeGrow_subset cs cs.length [t] (List.mem_singleton.mpr rfl)
    | tail hyx hrel ihy =>
      rename_i y z
      obtain ⟨c, hcmem, hcid, hcp⟩ := hrel
      have hclosed := cascadeGrow_closed cs hnd cs.length [t] (List.nodup_singleton t)
        (by intro d hd; rw [List.mem_singleton.mp hd]; exact ht)
        (by simp)
        c hcmem
        (by
          unfold parentDead
          rw [hcp]
          exact contains_true_iff.mpr ihy)
      rw [← hcid]
      exact hclosed

/-- When nothing points at the dead id, the cascade is the identity. -/
theorem cascadeGrow_fixed (cs : List Comment) (t : String)
    (h : ∀ c ∈ cs, parentDead [t] c = false) :
    ∀ fuel, cascadeGrow cs fuel [t] = [t] := by
  intro fuel
  cases fuel with
  | zero => rfl
  | succ n =>
    unfold cascadeGrow
    dsimp only
    rw [if_pos]
    exact List.map_eq_nil_iff.mpr (List.filter_eq_nil_iff.mpr
      (fun c hc => by rw [h c hc]; simp))

/-- `contains` on a one-element list is equality. -/
theorem contains_singleton (t x : String) : [t].contains x = (x == t) := by
  by_cases h : x = t <;> simp [List.contains_cons, h]

/-- After re-parenting the children of `t` to `p ≠ t`, no row points at `t`. -/
theorem reparent_no_parent_t {cs : List Comment} {t p : String} (hpt : p ≠ t) :
    ∀ c ∈ reparentChildren (some p) t cs, parentDead [t] c = false := by
  intro c hc
  unfold reparentChildren at hc
  obtain ⟨c0, hc0, hmap⟩ := List.mem_map.mp hc
  unfold parentDead
  by_cases h0 : c0.parentId = some t
  · rw [if_pos h0] at hmap
    rw [← hmap]
    dsimp only
    rw [contains_singleton]
    simpa using hpt
  · rw [if_neg h0] at hmap
    rw [← hmap]
    cases hq : c0.parentId with
    | none => rfl
    | some q =>
      have hqt : q ≠ t := fun he => h0 (by rw [hq, he])
      dsimp only
      rw [contains_singleton]
      simpa using hqt

/-- Filtering commutes with a map that preserves the filtered attribute. -/
theorem filter_map_comm (f : Comment → Comment) (p : Comment → Bool)
    (hp : ∀ c, p (f c) = p c) :
    ∀ l : List Comment, (l.map f).filter p = (l.filter p).map f := by
  intro l
  induction l with
  | nil => rfl
  | cons c l ih =>
    simp only [List.map_cons, List.filter_cons, hp c]
    cases hpc : p c with
    | true => simp [ih]
    | false => simp [ih]

/-- The delete command under a resolved target, as one pure state transform
(the `WithTx` body commits entirely or not at all). -/
theorem deleteCmdRun_eq (st : Store) (idPfx : String) (target : Comment)
    (hses : sessionExists st = true)
    (hfind : findCommentByIdPfx st.comments idPfx = some target) :
    deleteCmdRun st idPfx = .ok { st with
      comments := deleteCommentCascade target.id
          (if target.parentId.isSome then
            reparentChildren target.parentId target.id st.comments
          else st.comments) } := by
  unfold deleteCmdRun
  rw [hses, hfind]
  rfl

/-! ## C1: delete branches on root vs non-root -/

/-- C1: deleting a comment resolved by id prefix branches on rootness.  For
a root (null parent), the comment and its entire descendant subtree are
removed and nothing else: a comment survives exactly when it is not a
(reflexive-transitive) descendant of the deleted root.  For a non-root with
parent `p`, every direct child is re-pointed to `p` (never to null) and only
the target row is removed; in particular every root of the table — the
thread's root included — survives unchanged.  Both effects are a single pure
state transform executed inside `WithTx`. -/
theorem deleteCmd_branches (st : Store) (idPfx : String) (target : Comment)
    (hses : sessionExists st = true)
    (hnd : (st.comments.map (fun c => c.id)).Nodup)
    (hfind : findCommentByIdPfx st.comments idPfx = some target) :
    (target.parentId = none →
      ∃ st1, deleteCmdRun st idPfx = .ok st1 ∧
        ∀ c : Comment, c ∈ st1.comments ↔
          (c ∈ st.comments ∧ ¬ Descendant st.comments target.id c.id))
    ∧ (∀ p, target.parentId = some p → p ≠ target.id →
        ∃ st1, deleteCmdRun st idPfx = .ok st1 ∧
          st1.comments = (st.comments.filter (fun c => c.id != target.id)).map
            (fun c => if c.parentId = some target.id then { c with parentId := some p }
                      else c)
          ∧ ∀ c ∈ st.comments, c.parentId = none → c ∈ st1.comments) := by
  have htmem : target ∈ st.comments := findCommentByIdPfx_mem hfind
  have htid : target.id ∈ st.comments.map (fun c => c.id) :=
    List.mem_map.mpr ⟨target, htmem, rfl⟩
  constructor
  · -- root: cascade removes exactly the descendant subtree
    intro hroot
    have hisS : target.parentId.isSome = false := by rw [hroot]; rfl
    refine ⟨_, deleteCmdRun_eq st idPfx target hses hfind, ?_⟩
    intro c
    rw [hisS]
    show c ∈ deleteCommentCascade target.id (if false = true then _ else st.comments) ↔ _
    rw [if_neg (by simp)]
    unfold deleteCommentCascade
    rw [List.mem_filter]
    constructor
    · rintro ⟨hc, hkeep⟩
      refine ⟨hc, fun hdesc => ?_⟩
      have hinx : c.id ∈ cascadeGrow st.comments st.comments.length [target.id] :=
        (cascadeGrow_mem_iff st.comments target.id hnd htid c.id).mpr hdesc
      rw [contains_true_iff.mpr hinx] at hkeep
      cases hkeep
    · rintro ⟨hc, hnodesc⟩
      refine ⟨hc, ?_⟩
      have : (cascadeGrow st.comments st.comments.length [target.id]).contains c.id
          = false := by
        refine Bool.eq_false_iff.mpr (fun hcon => hnodesc ?_)
        exact (cascadeGrow_mem_iff st.comments target.id hnd htid c.id).mp
          (contains_true_iff.mp hcon)
      rw [this]
      rfl
  · -- non-root: re-parent direct children, remove only the target row
    intro p hp hpt
    have hcs1 : (if target.parentId.isSome = true then
        reparentChildren target.parentId target.id st.comments else st.comments) =
        reparentChildren (some p) target.id st.comments := by
      rw [hp]
      rfl
    refine ⟨_, deleteCmdRun_eq st idPfx target hses hfind, ?_, ?_⟩
    · show deleteCommentCascade target.id (if target.parentId.isSome = true then
          reparentChildren target.parentId target.id st.comments else st.comments) = _
      rw [hcs1]
      unfold deleteCommentCascade
      rw [cascadeGrow_fixed _ target.id (reparent_no_parent_t hpt) _]
      have hpredeq : ∀ c : Comment, (!([target.id].contains c.id)) = (c.id != target.id) := by
        intro c
        rw [contains_singleton]
        rfl
      rw [List.filter_congr (fun c _ => hpredeq c)]
      unfold reparentChildren
      exact filter_map_comm _ _ (fun c => by by_cases hc : c.parentId = some target.id <;>
        simp [hc]) st.comments
    · intro c hc hcroot
      show c ∈ deleteCommentCascade target.id (if target.parentId.isSome = true then
          reparentChildren target.parentId target.id st.comments else st.comments)
      rw [hcs1]
      unfold deleteCommentCascade
      rw [cascadeGrow_fixed _ target.id (reparent_no_parent_t hpt) _]
      rw [List.mem_filter]
      have hcid : c.id ≠ target.id := by
        intro he
        have : c = target := nodup_id_eq hnd hc htmem he
        rw [this, hp] at hcroot
        cases hcroot
      constructor
      · unfold reparentChildren
        refine List.mem_map.mpr ⟨c, hc, ?_⟩
        rw [if_neg (by rw [hcroot]; intro hcon; cases hcon)]
      · rw [contains_singleton]
        simpa using hcid

/-- Witness for C1 at the example store: deleting the middle comment "ab"
re-parents "abc" to the thread root "a" and removes only "ab". -/
theorem deleteCmd_branches_witness :
    sessionExists egStore = true ∧
    (((mkComment "ab" (some "a") "c2" "bob" : Comment).parentId = none →
      ∃ st1, deleteCmdRun egStore "ab" = .ok st1 ∧
        ∀ c : Comment, c ∈ st1.comments ↔
          (c ∈ egStore.comments ∧ ¬ Descendant egStore.comments "ab" c.id))
    ∧ (∀ p, (mkComment "ab" (some "a") "c2" "bob" : Comment).parentId = some p → p ≠ "ab" →
        ∃ st1, deleteCmdRun egStore "ab" = .ok st1 ∧
          st1.comments = (egStore.comments.filter (fun c => c.id != "ab")).map
            (fun c => if c.parentId = some "ab" then { c with parentId := some p } else c)
          ∧ ∀ c ∈ egStore.comments, c.parentId = none → c ∈ st1.comments)) := by
  refine ⟨rfl, ?_⟩
  exact deleteCmd_branches egStore "ab" (mkComment "ab" (some "a") "c2" "bob")
    rfl (by decide) rfl


end GitReview
